import Mathlib

/-!
Verification of the OpenAPI 2.0/3.x parser (`openapi_parser.ts`) of the
ocp-javascript repository.

The parser operates on an already-decoded specification document: an arbitrary
tree of string-keyed mappings, sequences and scalars.  We embed such documents
as the inductive type `Json` below; a mapping is represented as the list of its
properties in the object's own-property order (the order `Object.entries`
iterates, which is also the order in which the parser scans keys).

JavaScript-specific behaviours that the source relies on (truthiness, the
`x || default` idiom, property assignment keeping the position of an existing
key, string coercion in template literals) are modelled by the small js*
helpers, each annotated with the construct it embeds.

The resolver `resolveRefs` of the source is recursive but not structurally so
(a `$ref` jumps to an arbitrary subtree of the root document), so it is
embedded with an explicit recursion allowance (`fuel`): every recursive call
consumes one unit.  The stability theorem for claim C4 shows the result is
independent of the allowance once it exceeds an explicit bound, which is the
formal counterpart of termination of the source's recursion.
-/

/-- A decoded JSON/YAML document: the `SpecDocument` tree of the spec.
Numbers are embedded as integers (no claim involves fractional values). -/
inductive Json where
  | null : Json
  | bool : Bool → Json
  | num : Int → Json
  | str : String → Json
  | arr : List Json → Json
  | obj : List (String × Json) → Json

/-- First-match lookup in a property list (JS objects cannot carry duplicate
keys, so first-match agrees with JS property access). -/
def kvsLookup : List (String × Json) → String → Option Json
  | [], _ => none
  | (k, v) :: rest, key => if k = key then some v else kvsLookup rest key

/-- JS property assignment `o[k] = v`: replaces the value in place if the key
exists (keeping its position), otherwise appends the property. -/
def jsSet : List (String × Json) → String → Json → List (String × Json)
  | [], k, v => [(k, v)]
  | (k1, v1) :: rest, k, v =>
      if k1 = k then (k, v) :: rest else (k1, v1) :: jsSet rest k v

/-- JS truthiness of a value (`undefined` is handled at the Option layer). -/
def truthy : Json → Bool
  | Json.null => false
  | Json.bool b => b
  | Json.num n => n != 0
  | Json.str s => s ≠ ""
  | Json.arr _ => true
  | Json.obj _ => true

/-- Character list of a string (abbreviation used by the char-level helpers). -/
def chars (s : String) : List Char := s.data

/-- JS `String.prototype.startsWith` for the ASCII strings the parser uses. -/
def strStartsWith (s pre : String) : Bool :=
  List.isPrefixOf (chars pre) (chars s)

/-- JS `String.prototype.toLowerCase` (ASCII range, as used by the source). -/
def strToLower (s : String) : String := String.mk ((chars s).map Char.toLower)

/-- Element coercion inside JS `Array.prototype.toString` (null prints empty;
nested sequences are not spelled out further, no claim coerces them). -/
def jsToStringElem : Json → String
  | Json.null => ""
  | Json.bool true => "true"
  | Json.bool false => "false"
  | Json.num n => toString n
  | Json.str s => s
  | Json.arr _ => ""
  | Json.obj _ => "[object Object]"

/-- String coercion as performed by JS template literals and property keys:
`String(v)` for the value shapes that occur in decoded documents. -/
def jsToString : Json → String
  | Json.null => "null"
  | Json.bool true => "true"
  | Json.bool false => "false"
  | Json.num n => toString n
  | Json.str s => s
  | Json.arr xs => String.intercalate "," (xs.map fun x => jsToStringElem x)
  | Json.obj _ => "[object Object]"

/-- A canonical JS array-index property name: digits with no leading zero. -/
def jsArrayIndex (s : String) : Option Nat :=
  match chars s with
  | [] => none
  | cs =>
      if cs.all Char.isDigit ∧ (cs = ['0'] ∨ cs.head? ≠ some '0') then
        some (cs.foldl (fun acc c => acc * 10 + (c.toNat - 48)) 0)
      else none

/-- JS property read `v[k]` on a decoded value: objects by key, arrays by
canonical index (plus their `length` property); any other base yields
`undefined`, embedded as `none`. -/
def jsGet : Json → String → Option Json
  | Json.obj kvs, k => kvsLookup kvs k
  | Json.arr xs, k =>
      if k = "length" then some (Json.num (Int.ofNat xs.length))
      else
        match jsArrayIndex k with
        | some i => xs.get? i
        | none => none
  | _, _ => none

/-- The JS idiom `v || d` applied to a possibly-undefined property read. -/
def jsOr (v : Option Json) (d : Json) : Json :=
  match v with
  | some x => if truthy x then x else d
  | none => d

/-- Key-presence test (the `in` operator on decoded data, where present
properties never hold `undefined`). -/
def jsHas (v : Json) (k : String) : Bool := (jsGet v k).isSome

/-- The property list `Object.entries` iterates: an object's own properties in
order; an array's indexed elements; characters of a string; otherwise empty. -/
def entriesOf : Json → List (String × Json)
  | Json.obj kvs => kvs
  | Json.arr xs => (xs.enum.map fun p => (toString p.1, p.2))
  | Json.str s => ((chars s).enum.map fun p => (toString p.1, Json.str (String.mk [p.2])))
  | _ => []

/-- The version tags produced by `detectSpecVersion`. -/
inductive SpecVersion where
  | swagger_2 : SpecVersion
  | openapi_3_0 : SpecVersion
  | openapi_3_1 : SpecVersion
  | openapi_3_2 : SpecVersion
deriving DecidableEq

/-- Message of the missing-version-field error thrown by `detectSpecVersion`. -/
def missingVersionMsg : String :=
  "Unable to detect spec version: missing \"swagger\" or \"openapi\" field"

/-- Embeds `detectSpecVersion` of `openapi_parser.ts` (lines 57-79): errors are
the thrown `SchemaDiscoveryError` messages. -/
def detectSpecVersion (spec : Json) : Except String SpecVersion :=
  if jsHas spec "swagger" then
    match jsGet spec "swagger" with
    | some (Json.str s) =>
        if strStartsWith s "2." then Except.ok SpecVersion.swagger_2
        else Except.error ("Unsupported Swagger version: " ++ s)
    | some v => Except.error ("Unsupported Swagger version: " ++ jsToString v)
    | none => Except.error missingVersionMsg
  else if jsHas spec "openapi" then
    match jsGet spec "openapi" with
    | some (Json.str s) =>
        if strStartsWith s "3.0" then Except.ok SpecVersion.openapi_3_0
        else if strStartsWith s "3.1" then Except.ok SpecVersion.openapi_3_1
        else if strStartsWith s "3.2" then Except.ok SpecVersion.openapi_3_2
        else Except.error ("Unsupported OpenAPI version: " ++ s)
    | some v => Except.error ("Unsupported OpenAPI version: " ++ jsToString v)
    | none => Except.error missingVersionMsg
  else Except.error missingVersionMsg

/-- JS `v.length > 0` on an arbitrary value: only arrays and strings have a
numeric `length`; on any other value the comparison is false. -/
def hasPositiveLength : Json → Bool
  | Json.arr xs => xs.length > 0
  | Json.str s => s.length > 0
  | _ => false

/-- JS `v[0]` for the shapes guarded by a positive-length check. -/
def jsIndex0 : Json → Json
  | Json.arr (x :: _) => x
  | Json.str s =>
      match chars s with
      | c :: _ => Json.str (String.mk [c])
      | [] => Json.null
  | _ => Json.null

/-- Embeds `extractBaseUrl` (lines 132-151).  The returned value is coerced to
a string exactly where the source interpolates it into a template literal; the
OpenAPI-3.x branch returns `servers[0].url || ''` directly, which for decoded
documents is a string or the empty-string default (non-string truthy values are
coerced here to keep the embedding total). -/
def extractBaseUrl (v : SpecVersion) (spec : Json) : String :=
  if v = SpecVersion.swagger_2 then
    let schemes := jsOr (jsGet spec "schemes") (Json.arr [Json.str "https"])
    let host := jsOr (jsGet spec "host") (Json.str "")
    let basePath := jsOr (jsGet spec "basePath") (Json.str "")
    if truthy host then
      let scheme := if hasPositiveLength schemes then jsIndex0 schemes else Json.str "https"
      jsToString scheme ++ "://" ++ jsToString host ++ jsToString basePath
    else ""
  else
    match jsGet spec "servers" with
    | some sv =>
        if truthy sv ∧ hasPositiveLength sv then
          jsToString (jsOr (jsGet (jsIndex0 sv) "url") (Json.str ""))
        else ""
    | none => ""

/-- ASCII lowercase-letter-or-digit, the left class of the PascalCase-splitting
regex in `normalizeToolName`. -/
def isLowerDigit (c : Char) : Bool := c.isLower || c.isDigit

/-- Worker for `pascalSplitCh`, carrying the previously emitted character. -/
def pascalSplitGo (prev : Char) : List Char → List Char
  | [] => [prev]
  | c :: rest =>
      if isLowerDigit prev && c.isUpper then prev :: ' ' :: pascalSplitGo c rest
      else prev :: pascalSplitGo c rest

/-- The global replace of `([a-z0-9])([A-Z])` by the two characters separated
by a space (line 244 of the source). -/
def pascalSplitCh : List Char → List Char
  | [] => []
  | c :: rest => pascalSplitGo c rest

/-- Membership in the separator class of the regex at line 248. -/
def isSep (c : Char) : Bool := c = '/' || c = '_' || c = '.' || c = '-'

/-- Worker for `sepToSpace`; the flag records being inside a separator run. -/
def sepToSpaceGo : Bool → List Char → List Char
  | _, [] => []
  | inRun, c :: rest =>
      if isSep c then
        if inRun then sepToSpaceGo true rest else ' ' :: sepToSpaceGo true rest
      else c :: sepToSpaceGo false rest

/-- The global replace of separator runs by a single space (line 248). -/
def sepToSpace (l : List Char) : List Char := sepToSpaceGo false l

/-- JS `String.prototype.split` on a single-character separator. -/
def splitOnChar (sep : Char) : List Char → List (List Char)
  | [] => [[]]
  | c :: rest =>
      if c = sep then [] :: splitOnChar sep rest
      else
        match splitOnChar sep rest with
        | w :: ws => (c :: w) :: ws
        | [] => [[c]]

/-- Capitalisation of a single word: first character upper-cased, remainder
lower-cased (line 260). -/
def capWordCh : List Char → List Char
  | [] => []
  | c :: rest => c.toUpper :: rest.map Char.toLower

/-- Embeds `normalizeToolName` (lines 237-264): split PascalCase compounds,
replace separator runs by spaces, split into words, camel-case them; if no
words remain the original input is returned unchanged. -/
def normalizeToolName (name : String) : String :=
  if name = "" then name
  else
    let spaced := sepToSpace (pascalSplitCh (chars name))
    let words := (splitOnChar ' ' spaced).filter (fun w => w ≠ [])
    match words with
    | [] => name
    | w :: ws => String.mk (w.map Char.toLower ++ (ws.map capWordCh).flatten)

/-- Embeds `isValidToolName` (lines 269-285): non-empty, starts with an ASCII
letter, contains an alphanumeric character. -/
def isValidToolName (name : String) : Bool :=
  match chars name with
  | [] => false
  | c :: _ => c.isAlpha && (chars name).any (fun x => x.isAlphanum)

/-- The opening curly brace (written by code point to keep string literals
free of brace characters). -/
def lbrace : Char := Char.ofNat 123

/-- The closing curly brace. -/
def rbrace : Char := Char.ofNat 125

/-- Embeds the fallback-path cleanup at line 182 of the source: every slash is
replaced by an underscore, then both curly braces are removed. -/
def cleanPathForName (path : String) : String :=
  String.mk (((chars path).map fun c => if c = '/' then '_' else c).filter
    (fun c => c ≠ lbrace ∧ c ≠ rbrace))

/-- Navigation through the document along already-split pointer parts. -/
def lookupSteps : Json → List String → Option Json
  | current, [] => some current
  | current, part :: rest =>
      match jsGet current part with
      | some nxt => lookupSteps nxt rest
      | none => none

/-- Embeds `lookupRef` (lines 609-628).  The source signals absence by
returning `null`; navigating onto a JSON `null` value returns that same
`null`, so both outcomes collapse to `none` here, matching every use site
(they all compare the result against `null`).  `lookupRef` only reads the
document — it never throws. -/
def lookupRef (root : Json) (refPath : String) : Option Json :=
  if ¬ strStartsWith refPath "#/" then none
  else
    match lookupSteps root ((splitOnChar '/' ((chars refPath).drop 2)).map String.mk) with
    | some Json.null => none
    | r => r

/-- The guard applied to a looked-up target while inside a polymorphic keyword
(lines 536-550): object-shaped schemas (a `type` of `"object"` or a
`properties` key) keep their `$ref` unexpanded.  For a primitive target the
check `'properties' in resolved` throws a TypeError which the surrounding
catch turns into the same keep-the-ref outcome, so primitives answer true. -/
def inPolyKeep : Json → Bool
  | Json.obj kvs =>
      (match kvsLookup kvs "type" with
       | some (Json.str s) => s = "object"
       | _ => false) || (kvsLookup kvs "properties").isSome
  | Json.arr _ => false
  | _ => true

/-- The placeholder produced when a cycle is detected (line 560). -/
def circularPlaceholder : Json :=
  Json.obj [("type", Json.str "object"), ("description", Json.str "Circular reference")]

/-- The placeholder constructed in the catch handler at line 577.  Since
`lookupRef` never throws, that handler is dead code: the value is defined here
only so the divergence recorded for claim C1 can be stated. -/
def unresolvedPlaceholder : Json :=
  Json.obj [("type", Json.str "object"), ("description", Json.str "Unresolved reference")]

/-- The memoization cache: a JS object keyed by pointer strings. -/
abbrev Memo := List (String × Json)

/-- Sequential resolution of array elements, threading the memo cache exactly
as the source's in-place mutation of the shared cache object does. -/
def resolveList (f : Json → Memo → Json × Memo) : List Json → Memo → List Json × Memo
  | [], memo => ([], memo)
  | x :: xs, memo =>
      let r := f x memo
      let rs := resolveList f xs r.2
      (r.1 :: rs.1, rs.2)

/-- Sequential resolution of the values of a property list, threading the memo
cache and keeping every key in place. -/
def resolveKVs (f : Json → Memo → Json × Memo) :
    List (String × Json) → Memo → List (String × Json) × Memo
  | [], memo => ([], memo)
  | (k, v) :: rest, memo =>
      let r := f v memo
      let rs := resolveKVs f rest r.2
      ((k, r.1) :: rs.1, rs.2)

/-- The source's composition test `'anyOf' in obj` followed by mapping over
`obj.anyOf`: answers the item list exactly when the keyword is present with an
array value.  A keyword present with a non-array value would make the source
throw a TypeError while mapping; such nodes are processed as plain mappings
here (unreachable in any claim). -/
def compItems (kvs : List (String × Json)) (key : String) : Option (List Json) :=
  match kvsLookup kvs key with
  | some (Json.arr items) => some items
  | _ => none

/-- The pure-`$ref` test of line 527: an object whose only key is `$ref` with
a string value.  A non-string `$ref` value would make the source throw at
`refPath.startsWith`; such nodes are processed as plain mappings here
(unreachable in any claim). -/
def pureRefOf : List (String × Json) → Option String
  | [("$ref", Json.str refPath)] => some refPath
  | _ => none

/-- Embeds `resolveRefs` (lines 468-600) with an explicit recursion allowance:
every recursive call of the source consumes one unit of `fuel`, and an
exhausted allowance returns the node unchanged.  By the stability theorem
(claim C4) the result does not depend on the allowance once it exceeds an
explicit bound, so any sufficiently fuelled run embeds the source's
recursion. -/
def resolveRefsFuel : Nat → Json → Json → List String → Memo → Bool → Json × Memo
  | 0, node, _, _, memo, _ => (node, memo)
  | Nat.succ fuel, node, root, stack, memo, inPoly =>
      match node with
      | Json.obj kvs =>
          match compItems kvs "anyOf" with
          | some items =>
              let branches := resolveList (fun o m => resolveRefsFuel fuel o root stack m true) items memo
              let rest := resolveKVs (fun o m => resolveRefsFuel fuel o root stack m inPoly)
                (kvs.filter fun p => p.1 ≠ "anyOf") branches.2
              (Json.obj (("anyOf", Json.arr branches.1) :: rest.1), rest.2)
          | none =>
            match compItems kvs "oneOf" with
            | some items =>
                let branches := resolveList (fun o m => resolveRefsFuel fuel o root stack m true) items memo
                let rest := resolveKVs (fun o m => resolveRefsFuel fuel o root stack m inPoly)
                  (kvs.filter fun p => p.1 ≠ "oneOf") branches.2
                (Json.obj (("oneOf", Json.arr branches.1) :: rest.1), rest.2)
            | none =>
              match compItems kvs "allOf" with
              | some items =>
                  let branches := resolveList (fun o m => resolveRefsFuel fuel o root stack m true) items memo
                  let rest := resolveKVs (fun o m => resolveRefsFuel fuel o root stack m inPoly)
                    (kvs.filter fun p => p.1 ≠ "allOf") branches.2
                  (Json.obj (("allOf", Json.arr branches.1) :: rest.1), rest.2)
              | none =>
                  match pureRefOf kvs with
                  | some refPath =>
                      if ¬ strStartsWith refPath "#/" then (node, memo)
                      else if inPoly && (match lookupRef root refPath with
                            | some t => inPolyKeep t
                            | none => false) then (node, memo)
                      else
                        match kvsLookup memo refPath with
                        | some v => (v, memo)
                        | none =>
                            if refPath ∈ stack then
                              (circularPlaceholder, jsSet memo refPath circularPlaceholder)
                            else
                              match lookupRef root refPath with
                              | some target =>
                                  let r := resolveRefsFuel fuel target root (stack ++ [refPath]) memo inPoly
                                  (r.1, jsSet r.2 refPath r.1)
                              | none => (node, memo)
                  | none =>
                      let r := resolveKVs (fun o m => resolveRefsFuel fuel o root stack m inPoly) kvs memo
                      (Json.obj r.1, r.2)
      | Json.arr xs =>
          let r := resolveList (fun o m => resolveRefsFuel fuel o root stack m inPoly) xs memo
          (Json.arr r.1, r.2)
      | x => (x, memo)

/-- JS `typeof v === 'object' && v !== null` (arrays included). -/
def isObjectLike : Json → Bool
  | Json.obj _ => true
  | Json.arr _ => true
  | _ => false

/-- Truthiness of a possibly-undefined property read. -/
def truthyOpt : Option Json → Bool
  | some v => truthy v
  | none => false

/-- JS `String.prototype.toUpperCase` (ASCII range, as used by the source). -/
def strToUpper (s : String) : String := String.mk ((chars s).map Char.toUpper)

/-- JS `Array.prototype.includes` applied to a string, as in the
`required.includes(name)` membership tests (equality is `===`, so only string
elements can match a string). -/
def includesStr (xs : List Json) (s : String) : Bool :=
  xs.any fun x =>
    match x with
    | Json.str t => t = s
    | _ => false

/-- The membership test `required.includes(name)` for the decoded value of a
schema's `required` field after the `|| []` default: arrays test element
membership; a truthy string value would be JS substring containment; on the
remaining (truthy, crash-inducing) shapes the test is modelled as false. -/
def requiredIncludes (required : Json) (name : String) : Bool :=
  match required with
  | Json.arr xs => includesStr xs name
  | Json.str s => (List.tails (chars s)).any fun t => List.isPrefixOf (chars name) t
  | _ => false

/-- The property list produced from one decomposed body property (lines
361-372 and 405-416 of the source spell this out identically twice). -/
def bodyPropEntry (required : Json) (name : String) (prop : Json) : Json :=
  let base := [("description", jsOr (jsGet prop "description") (Json.str "")),
               ("required", Json.bool (requiredIncludes required name)),
               ("location", Json.str "body"),
               ("type", jsOr (jsGet prop "type") (Json.str "string"))]
  match jsGet prop "enum" with
  | some e => Json.obj (base ++ [("enum", e)])
  | none => Json.obj base

/-- Decomposition of a resolved `type: "object"` schema into body-parameter
properties, shared verbatim by both request-body extractors of the source. -/
def bodyPropsFromSchema (schema : Json) : List (String × Json) :=
  if (match jsGet schema "type" with
      | some (Json.str s) => s = "object"
      | _ => false : Bool) then
    let properties := jsOr (jsGet schema "properties") (Json.obj [])
    let required := jsOr (jsGet schema "required") (Json.arr [])
    (entriesOf properties).foldl
      (fun acc p =>
        if isObjectLike p.2 then jsSet acc p.1 (bodyPropEntry required p.1 p.2) else acc)
      []
  else []

/-- Embeds `parseOpenApi3RequestBody` (lines 333-379). -/
def parseOpenApi3RequestBody (fuel : Nat) (requestBody specData : Json) (memo : Memo) :
    List (String × Json) × Memo :=
  if ¬ isObjectLike requestBody then ([], memo)
  else
    let content := jsOr (jsGet requestBody "content") (Json.obj [])
    match jsGet content "application/json" with
    | some jc =>
        if truthy jc then
          match jsGet jc "schema" with
          | some sc =>
              if truthy sc then
                let r := resolveRefsFuel fuel sc specData [] memo false
                (bodyPropsFromSchema r.1, r.2)
              else ([], memo)
          | none => ([], memo)
        else ([], memo)
    | none => ([], memo)

/-- Embeds `parseSwagger2BodyParameter` (lines 384-423). -/
def parseSwagger2BodyParameter (fuel : Nat) (param specData : Json) (memo : Memo) :
    List (String × Json) × Memo :=
  if ¬ isObjectLike param then ([], memo)
  else if ¬ (match jsGet param "in" with
             | some (Json.str s) => s = "body"
             | _ => false : Bool) then ([], memo)
  else
    match jsGet param "schema" with
    | some sc =>
        if truthy sc then
          let r := resolveRefsFuel fuel sc specData [] memo false
          (bodyPropsFromSchema r.1, r.2)
        else ([], memo)
    | none => ([], memo)

/-- Embeds the loop body of `parseParameters` (lines 290-328), accumulating
the result object and threading the memo cache. -/
def parseParametersGo (fuel : Nat) (specData : Json) :
    List Json → List (String × Json) → Memo → List (String × Json) × Memo
  | [], result, memo => (result, memo)
  | param :: rest, result, memo =>
      if ¬ isObjectLike param then parseParametersGo fuel specData rest result memo
      else
        match jsGet param "name" with
        | some nv =>
            if truthy nv then
              let schema := jsOr (jsGet param "schema") (Json.obj [])
              let r := resolveRefsFuel fuel schema specData [] memo false
              let base := [("description", jsOr (jsGet param "description") (Json.str "")),
                           ("required", jsOr (jsGet param "required") (Json.bool false)),
                           ("location", jsOr (jsGet param "in") (Json.str "query")),
                           ("type", jsOr (jsGet r.1 "type") (Json.str "string"))]
              let withEnum := match jsGet r.1 "enum" with
                | some e => base ++ [("enum", e)]
                | none => base
              let withFmt := match jsGet r.1 "format" with
                | some f => withEnum ++ [("format", f)]
                | none => withEnum
              parseParametersGo fuel specData rest (jsSet result (jsToString nv) (Json.obj withFmt)) r.2
            else parseParametersGo fuel specData rest result memo
        | none => parseParametersGo fuel specData rest result memo

/-- The element list a JS `for...of` iterates for the value of
`operation.parameters || []`: an array's elements, a string's characters,
anything else contributing nothing (a non-iterable would throw). -/
def iterableElems : Json → List Json
  | Json.arr xs => xs
  | Json.str s => (chars s).map fun c => Json.str (String.mk [c])
  | _ => []

/-- Embeds the scan of `parseResponses` (lines 428-456): first `2`-prefixed
status key whose object-shaped response yields a truthy schema (directly for
Swagger 2, under `content["application/json"]` for OpenAPI 3.x); that schema
is resolved and returned, anything else continues the scan. -/
def parseResponsesGo (fuel : Nat) (v : SpecVersion) (specData : Json) :
    List (String × Json) → Memo → Option Json × Memo
  | [], memo => (none, memo)
  | (statusCode, resp) :: rest, memo =>
      if strStartsWith statusCode "2" && isObjectLike resp then
        match v with
        | SpecVersion.swagger_2 =>
            match jsGet resp "schema" with
            | some sv =>
                if truthy sv then
                  let r := resolveRefsFuel fuel sv specData [] memo false
                  (some r.1, r.2)
                else parseResponsesGo fuel v specData rest memo
            | none => parseResponsesGo fuel v specData rest memo
        | _ =>
            let content := jsOr (jsGet resp "content") (Json.obj [])
            match jsGet content "application/json" with
            | some jc =>
                if truthy jc then
                  match jsGet jc "schema" with
                  | some sc =>
                      if truthy sc then
                        let r := resolveRefsFuel fuel sc specData [] memo false
                        (some r.1, r.2)
                      else parseResponsesGo fuel v specData rest memo
                  | none => parseResponsesGo fuel v specData rest memo
                else parseResponsesGo fuel v specData rest memo
            | none => parseResponsesGo fuel v specData rest memo
      else parseResponsesGo fuel v specData rest memo

/-- Embeds `parseResponses` on the raw `responses` value. -/
def parseResponses (fuel : Nat) (v : SpecVersion) (responses specData : Json) (memo : Memo) :
    Option Json × Memo :=
  parseResponsesGo fuel v specData (entriesOf responses) memo

/-- One extracted tool (`OCPTool` of `base.ts`).  Fields that the source
stores without coercion keep their raw decoded value. -/
structure OCPTool where
  name : String
  description : Json
  method : String
  path : String
  parameters : List (String × Json)
  response_schema : Option Json
  operation_id : Option Json
  tags : Json

/-- JS `Object.assign(target, src)`: each own property of `src` assigned onto
`target` in order. -/
def assignAll (target src : List (String × Json)) : List (String × Json) :=
  src.foldl (fun acc p => jsSet acc p.1 p.2) target

/-- The Swagger-2 body pass of `createToolFromOperation` (lines 204-209):
every entry of the operation's parameter list is offered to
`parseSwagger2BodyParameter` and the produced properties are assigned onto the
accumulated parameters. -/
def sw2BodyGo (fuel : Nat) (specData : Json) :
    List Json → List (String × Json) → Memo → List (String × Json) × Memo
  | [], params, memo => (params, memo)
  | param :: rest, params, memo =>
      let bp := parseSwagger2BodyParameter fuel param specData memo
      sw2BodyGo fuel specData rest (assignAll params bp.1) bp.2

/-- Embeds `createToolFromOperation` (lines 156-232).  A truthy non-string
`operationId` would make the source throw inside `normalizeToolName`; such
values are treated as contributing no name here (unreachable in any claim). -/
def createToolFromOperation (fuel : Nat) (v : SpecVersion) (path method : String)
    (operation specData : Json) (memo : Memo) : Option OCPTool × Memo :=
  if ¬ isObjectLike operation then (none, memo)
  else
    let opIdV := jsGet operation "operationId"
    let fromOpId : Option String :=
      match opIdV with
      | some (Json.str s) =>
          if s ≠ "" then
            let n := normalizeToolName s
            if isValidToolName n then some n else none
          else none
      | _ => none
    let toolName? : Option String :=
      match fromOpId with
      | some n => some n
      | none =>
          let n := normalizeToolName (strToLower method ++ cleanPathForName path)
          if isValidToolName n then some n else none
    match toolName? with
    | none => (none, memo)
    | some toolName =>
        let description := jsOr (jsGet operation "summary")
          (jsOr (jsGet operation "description") (Json.str "No description provided"))
        let tags := jsOr (jsGet operation "tags") (Json.arr [])
        let paramsList := iterableElems (jsOr (jsGet operation "parameters") (Json.arr []))
        let p1 := parseParametersGo fuel specData paramsList [] memo
        let p2 :=
          if strToUpper method ∈ ["POST", "PUT", "PATCH"] then
            if v = SpecVersion.swagger_2 then
              sw2BodyGo fuel specData paramsList p1.1 p1.2
            else
              match jsGet operation "requestBody" with
              | some rb =>
                  if truthy rb then
                    let bp := parseOpenApi3RequestBody fuel rb specData p1.2
                    (assignAll p1.1 bp.1, bp.2)
                  else p1
              | none => p1
          else p1
        let resp := parseResponses fuel v (jsOr (jsGet operation "responses") (Json.obj [])) specData p2.2
        (some { name := toolName, description := description, method := strToUpper method,
                path := path, parameters := p2.1, response_schema := resp.1,
                operation_id := opIdV, tags := tags }, resp.2)

/-- HTTP methods recognised by the operation loop. -/
def supportedHttpMethods : List String := ["get", "post", "put", "patch", "delete"]

/-- The inner method loop of `parseOpenApiSpec` (lines 107-116). -/
def toolsFromMethods (fuel : Nat) (v : SpecVersion) (spec : Json) (path : String) :
    List (String × Json) → Memo → List OCPTool × Memo
  | [], memo => ([], memo)
  | (method, operation) :: rest, memo =>
      if supportedHttpMethods.contains (strToLower method) then
        let t := createToolFromOperation fuel v path method operation spec memo
        let ts := toolsFromMethods fuel v spec path rest t.2
        (match t.1 with
         | some tool => tool :: ts.1
         | none => ts.1, ts.2)
      else toolsFromMethods fuel v spec path rest memo

/-- The outer path loop of `parseOpenApiSpec` (lines 104-117). -/
def toolsFromPaths (fuel : Nat) (v : SpecVersion) (spec : Json) :
    List (String × Json) → Memo → List OCPTool × Memo
  | [], memo => ([], memo)
  | (path, pathItem) :: rest, memo =>
      if isObjectLike pathItem then
        let ts := toolsFromMethods fuel v spec path (entriesOf pathItem) memo
        let moreTs := toolsFromPaths fuel v spec rest ts.2
        (ts.1 ++ moreTs.1, moreTs.2)
      else toolsFromPaths fuel v spec rest memo

/-- The assembled specification record (`OCPAPISpec` of `base.ts`). -/
structure OCPAPISpec where
  base_url : String
  title : Json
  version : Json
  description : Json
  tools : List OCPTool
  raw_spec : Json

/-- Embeds `parseOpenApiSpec` (lines 84-127): info extraction with defaults,
base-URL selection, and the tool loop over `paths` with one memo cache shared
by the whole parse. -/
def parseOpenApiSpec (fuel : Nat) (v : SpecVersion) (spec : Json)
    (baseUrlOverride : Option String) : OCPAPISpec :=
  let info := jsOr (jsGet spec "info") (Json.obj [])
  let baseUrl :=
    match baseUrlOverride with
    | some u => if u ≠ "" then u else extractBaseUrl v spec
    | none => extractBaseUrl v spec
  let paths := jsOr (jsGet spec "paths") (Json.obj [])
  let tm := toolsFromPaths fuel v spec (entriesOf paths) []
  { base_url := baseUrl,
    title := jsOr (jsGet info "title") (Json.str "Unknown API"),
    version := jsOr (jsGet info "version") (Json.str "1.0.0"),
    description := jsOr (jsGet info "description") (Json.str ""),
    tools := tm.1,
    raw_spec := spec }

/-- The segmentation steps of `filterToolsByResources` (lines 644-658), which
the claim describes in the same order: strip the prefix on a case-insensitive
match (the source checks `if (pathPrefix)`, so an empty prefix is never
stripped), lower-case, turn dots into slashes, split on slashes, and drop
empty segments and parameter placeholders. -/
def pathSegments (pathPref : Option String) (path0 : String) : List (List Char) :=
  let path :=
    match pathPref with
    | some pre =>
        if pre ≠ "" && strStartsWith (strToLower path0) (strToLower pre)
        then String.mk ((chars path0).drop (chars pre).length)
        else path0
    | none => path0
  let pathNorm := (chars (strToLower path)).map fun c => if c = '.' then '/' else c
  (splitOnChar '/' pathNorm).filter fun seg =>
      seg ≠ [] && ¬ (seg.head? = some lbrace)

/-- The keep-predicate of `filterToolsByResources` (lines 641-662) applied to
one tool. -/
def keepTool (normalizedResources : List String) (pathPref : Option String) (tool : OCPTool) : Bool :=
  match pathSegments pathPref tool.path with
  | [] => false
  | s :: _ => normalizedResources.contains (String.mk s)

/-- Embeds `filterToolsByResources` (lines 633-663). -/
def filterToolsByResources (tools : List OCPTool) (includeResources : List String)
    (pathPref : Option String) : List OCPTool :=
  if includeResources.isEmpty then tools
  else
    let normalizedResources := includeResources.map strToLower
    tools.filter (keepTool normalizedResources pathPref)

/-- Embeds `parse` (lines 23-46): version detection, document parsing, and the
optional resource-filter pass. -/
def parse (fuel : Nat) (spec : Json) (baseUrlOverride : Option String)
    (includeResources : Option (List String)) (pathPref : Option String) :
    Except String OCPAPISpec :=
  match detectSpecVersion spec with
  | Except.error e => Except.error e
  | Except.ok v =>
      let apiSpec := parseOpenApiSpec fuel v spec baseUrlOverride
      match includeResources with
      | some rs => Except.ok { apiSpec with tools := filterToolsByResources apiSpec.tools rs pathPref }
      | none => Except.ok apiSpec

mutual
/-- Node count of a document tree: the structural component of the resolver's
termination measure. -/
def jsize : Json → Nat
  | Json.null => 1
  | Json.bool _ => 1
  | Json.num _ => 1
  | Json.str _ => 1
  | Json.arr xs => 1 + jsizeList xs
  | Json.obj kvs => 1 + jsizeKVs kvs

/-- Total size of the elements of an array node. -/
def jsizeList : List Json → Nat
  | [] => 0
  | x :: xs => jsize x + jsizeList xs

/-- Total size of the values of a mapping node. -/
def jsizeKVs : List (String × Json) → Nat
  | [] => 0
  | p :: rest => jsize p.2 + jsizeKVs rest
end

mutual
/-- Every string value occurring in a tree: a finite overapproximation of the
pointers reachable from it (the pointer of any `$ref` node it contains is
among them). -/
def refStrings : Json → Finset String
  | Json.null => ∅
  | Json.bool _ => ∅
  | Json.num _ => ∅
  | Json.str s => {s}
  | Json.arr xs => refStringsList xs
  | Json.obj kvs => refStringsKVs kvs

/-- String values occurring in an array's elements. -/
def refStringsList : List Json → Finset String
  | [] => ∅
  | x :: xs => refStrings x ∪ refStringsList xs

/-- String values occurring in a mapping's values. -/
def refStringsKVs : List (String × Json) → Finset String
  | [] => ∅
  | p :: rest => refStrings p.2 ∪ refStringsKVs rest
end

/-- The resolver's termination measure at a node: its own size plus, for every
pointer that could still be pushed onto the stack, room for one full traversal
of the root document. -/
def rMeasure (node root : Json) (stack : List String) : Nat :=
  jsize node + ((refStrings root ∪ refStrings node) \ stack.toFinset).card * (jsize root + 1)

theorem jsize_pos : ∀ j, 1 ≤ jsize j := by
  intro j
  cases j <;> simp [jsize]

theorem jsizeKVs_of_kvsLookup : ∀ (kvs : List (String × Json)) (k : String) (v : Json),
    kvsLookup kvs k = some v → jsize v ≤ jsizeKVs kvs := by
  intro kvs k v
  induction kvs with
  | nil => intro h; simp [kvsLookup] at h
  | cons p rest ih =>
      intro h
      simp only [kvsLookup] at h
      by_cases hk : p.1 = k
      · simp [hk] at h
        subst h
        simp [jsizeKVs]
      · simp [hk] at h
        have := ih h
        simp [jsizeKVs]
        omega

theorem jsizeKVs_of_mem : ∀ (kvs : List (String × Json)) (p : String × Json),
    p ∈ kvs → jsize p.2 ≤ jsizeKVs kvs := by
  intro kvs p
  induction kvs with
  | nil => intro h; simp at h
  | cons q rest ih =>
      intro h
      rcases List.mem_cons.mp h with h | h
      · subst h; simp [jsizeKVs]
      · have := ih h
        simp [jsizeKVs]
        omega

theorem jsizeList_of_mem : ∀ (xs : List Json) (x : Json), x ∈ xs → jsize x ≤ jsizeList xs := by
  intro xs x
  induction xs with
  | nil => intro h; simp at h
  | cons y rest ih =>
      intro h
      rcases List.mem_cons.mp h with h | h
      · subst h; simp [jsizeList]
      · have := ih h
        simp [jsizeList]
        omega

theorem refStringsKVs_of_kvsLookup : ∀ (kvs : List (String × Json)) (k : String) (v : Json),
    kvsLookup kvs k = some v → refStrings v ⊆ refStringsKVs kvs := by
  intro kvs k v
  induction kvs with
  | nil => intro h; simp [kvsLookup] at h
  | cons p rest ih =>
      intro h
      simp only [kvsLookup] at h
      by_cases hk : p.1 = k
      · simp [hk] at h
        subst h
        simp [refStringsKVs]
      · simp [hk] at h
        exact (ih h).trans Finset.subset_union_right

theorem refStringsKVs_of_mem : ∀ (kvs : List (String × Json)) (p : String × Json),
    p ∈ kvs → refStrings p.2 ⊆ refStringsKVs kvs := by
  intro kvs p
  induction kvs with
  | nil => intro h; simp at h
  | cons q rest ih =>
      intro h
      rcases List.mem_cons.mp h with h | h
      · subst h
        simp [refStringsKVs]
      · exact (ih h).trans Finset.subset_union_right

theorem refStringsList_of_mem : ∀ (xs : List Json) (x : Json),
    x ∈ xs → refStrings x ⊆ refStringsList xs := by
  intro xs x
  induction xs with
  | nil => intro h; simp at h
  | cons y rest ih =>
      intro h
      rcases List.mem_cons.mp h with h | h
      · subst h
        simp [refStringsList]
      · exact (ih h).trans Finset.subset_union_right

theorem compItems_eq_some : ∀ (kvs : List (String × Json)) (key : String) (items : List Json),
    compItems kvs key = some items → kvsLookup kvs key = some (Json.arr items) := by
  intro kvs key items h
  unfold compItems at h
  split at h
  · injection h with h
    subst h
    assumption
  · exact absurd h (by simp)

theorem pureRefOf_eq_some : ∀ (kvs : List (String × Json)) (p : String),
    pureRefOf kvs = some p → kvs = [("$ref", Json.str p)] := by
  intro kvs p h
  unfold pureRefOf at h
  split at h
  · injection h with h
    subst h
    rfl
  · exact absurd h (by simp)

theorem jsGet_bound : ∀ (cur : Json) (k : String) (v : Json),
    jsGet cur k = some v → jsize v ≤ jsize cur ∧ refStrings v ⊆ refStrings cur := by
  intro cur k v h
  cases cur with
  | obj kvs =>
      simp only [jsGet] at h
      refine ⟨?_, ?_⟩
      · have := jsizeKVs_of_kvsLookup kvs k v h
        simp [jsize]
        omega
      · have := refStringsKVs_of_kvsLookup kvs k v h
        simpa [refStrings] using this
  | arr xs =>
      simp only [jsGet] at h
      by_cases hk : k = "length"
      · simp [hk] at h
        subst h
        constructor
        · simp [jsize]
        · simp [refStrings, refStringsList]
      · simp [hk] at h
        rcases h1 : jsArrayIndex k with _ | i
        · rw [h1] at h; exact absurd h (by simp)
        · rw [h1] at h
          simp only [] at h
          have hmem : v ∈ xs := List.getElem?_mem h
          refine ⟨?_, ?_⟩
          · have := jsizeList_of_mem xs v hmem
            simp [jsize]
            omega
          · have := refStringsList_of_mem xs v hmem
            simpa [refStrings] using this
  | null => simp [jsGet] at h
  | bool b => simp [jsGet] at h
  | num n => simp [jsGet] at h
  | str s => simp [jsGet] at h

theorem lookupSteps_bound : ∀ (parts : List String) (cur t : Json),
    lookupSteps cur parts = some t → jsize t ≤ jsize cur ∧ refStrings t ⊆ refStrings cur := by
  intro parts
  induction parts with
  | nil =>
      intro cur t h
      simp [lookupSteps] at h
      subst h
      exact ⟨le_refl _, subset_refl _⟩
  | cons part rest ih =>
      intro cur t h
      simp only [lookupSteps] at h
      rcases h1 : jsGet cur part with _ | nxt
      · rw [h1] at h; exact absurd h (by simp)
      · rw [h1] at h
        obtain ⟨ha, hb⟩ := ih nxt t h
        obtain ⟨hc, hd⟩ := jsGet_bound cur part nxt h1
        exact ⟨ha.trans hc, hb.trans hd⟩

theorem lookupRef_bound : ∀ (root : Json) (p : String) (t : Json),
    lookupRef root p = some t → jsize t ≤ jsize root ∧ refStrings t ⊆ refStrings root := by
  intro root p t h
  unfold lookupRef at h
  split at h
  · exact absurd h (by simp)
  · split at h
    · exact absurd h (by simp)
    · exact lookupSteps_bound _ root t h

theorem rMeasure_lt_of_child : ∀ (c node root : Json) (stack : List String),
    jsize c < jsize node → refStrings c ⊆ refStrings node →
    rMeasure c root stack < rMeasure node root stack := by
  intro c node root stack h1 h2
  unfold rMeasure
  have hsub : (refStrings root ∪ refStrings c) \ stack.toFinset ⊆
      (refStrings root ∪ refStrings node) \ stack.toFinset :=
    Finset.sdiff_subset_sdiff (Finset.union_subset_union (subset_refl _) h2) (subset_refl _)
  have hcard := Finset.card_le_card hsub
  have hmul := Nat.mul_le_mul_right (jsize root + 1) hcard
  omega

theorem rMeasure_lt_jump : ∀ (node root t : Json) (stack : List String) (p : String),
    lookupRef root p = some t → p ∈ refStrings node → p ∉ stack →
    rMeasure t root (stack ++ [p]) < rMeasure node root stack := by
  intro node root t stack p hlook hp hstack
  obtain ⟨hsz, hsub⟩ := lookupRef_bound root p t hlook
  unfold rMeasure
  have hpS : p ∈ (refStrings root ∪ refStrings node) \ stack.toFinset := by
    simp only [Finset.mem_sdiff, Finset.mem_union, List.mem_toFinset]
    exact ⟨Or.inr hp, hstack⟩
  have hsubset : (refStrings root ∪ refStrings t) \ (stack ++ [p]).toFinset ⊆
      ((refStrings root ∪ refStrings node) \ stack.toFinset).erase p := by
    intro x hx
    simp only [Finset.mem_sdiff, Finset.mem_union, List.toFinset_append, List.mem_toFinset,
      Finset.mem_erase, Finset.mem_union, List.mem_toFinset, List.mem_singleton] at hx ⊢
    obtain ⟨hx1, hx2⟩ := hx
    constructor
    · intro hxp
      exact hx2 (Or.inr (by simpa [List.mem_toFinset] using hxp))
    · refine ⟨?_, fun hxs => hx2 (Or.inl (by simpa [List.mem_toFinset] using hxs))⟩
      rcases hx1 with hx1 | hx1
      · exact Or.inl hx1
      · exact Or.inl (hsub hx1)
  have hcard : ((refStrings root ∪ refStrings t) \ (stack ++ [p]).toFinset).card ≤
      ((refStrings root ∪ refStrings node) \ stack.toFinset).card - 1 := by
    have := Finset.card_le_card hsubset
    rw [Finset.card_erase_of_mem hpS] at this
    exact this
  have hone : 1 ≤ ((refStrings root ∪ refStrings node) \ stack.toFinset).card :=
    Finset.card_pos.mpr ⟨p, hpS⟩
  obtain ⟨c, hc⟩ : ∃ c, ((refStrings root ∪ refStrings node) \ stack.toFinset).card = c + 1 :=
    ⟨_, (Nat.succ_pred_eq_of_pos hone).symm⟩
  rw [hc] at hcard ⊢
  simp only [Nat.add_sub_cancel] at hcard
  have hmul := Nat.mul_le_mul_right (jsize root + 1) hcard
  have hpos := jsize_pos node
  have hexp : (c + 1) * (jsize root + 1) = c * (jsize root + 1) + (jsize root + 1) := by ring
  -- goal is linear once the two products are abstracted
  omega

theorem resolveList_congr : ∀ (f g : Json → Memo → Json × Memo) (xs : List Json),
    (∀ x ∈ xs, ∀ m, f x m = g x m) →
    ∀ memo, resolveList f xs memo = resolveList g xs memo := by
  intro f g xs
  induction xs with
  | nil => intro _ memo; rfl
  | cons x rest ih =>
      intro h memo
      simp only [resolveList]
      rw [h x (by simp) memo, ih (fun y hy m => h y (by simp [hy]) m)]

theorem resolveKVs_congr : ∀ (f g : Json → Memo → Json × Memo) (kvs : List (String × Json)),
    (∀ p ∈ kvs, ∀ m, f p.2 m = g p.2 m) →
    ∀ memo, resolveKVs f kvs memo = resolveKVs g kvs memo := by
  intro f g kvs
  induction kvs with
  | nil => intro _ memo; rfl
  | cons p rest ih =>
      intro h memo
      simp only [resolveKVs]
      rw [h p (by simp) memo, ih (fun q hq m => h q (by simp [hq]) m)]

theorem rMeasure_lt_of_item (kvs : List (String × Json)) (key : String) (items : List Json)
    (x root : Json) (stack : List String)
    (hlook : kvsLookup kvs key = some (Json.arr items)) (hx : x ∈ items) :
    rMeasure x root stack < rMeasure (Json.obj kvs) root stack := by
  apply rMeasure_lt_of_child
  · have h1 := jsizeList_of_mem items x hx
    have h2 := jsizeKVs_of_kvsLookup kvs key (Json.arr items) hlook
    simp [jsize] at h2 ⊢
    omega
  · have h1 := refStringsList_of_mem items x hx
    have h2 := refStringsKVs_of_kvsLookup kvs key (Json.arr items) hlook
    simp [refStrings] at h2 ⊢
    exact h1.trans h2

theorem rMeasure_lt_of_value (kvs : List (String × Json)) (p : String × Json)
    (root : Json) (stack : List String) (hp : p ∈ kvs) :
    rMeasure p.2 root stack < rMeasure (Json.obj kvs) root stack := by
  apply rMeasure_lt_of_child
  · have := jsizeKVs_of_mem kvs p hp
    simp [jsize]
    omega
  · have := refStringsKVs_of_mem kvs p hp
    simpa [refStrings] using this

theorem rMeasure_lt_of_elem (xs : List Json) (x root : Json) (stack : List String)
    (hx : x ∈ xs) : rMeasure x root stack < rMeasure (Json.arr xs) root stack := by
  apply rMeasure_lt_of_child
  · have := jsizeList_of_mem xs x hx
    simp [jsize]
    omega
  · have := refStringsList_of_mem xs x hx
    simpa [refStrings] using this

theorem resolveRefsFuel_stable :
    ∀ f g node root stack memo inPoly,
      rMeasure node root stack < f → rMeasure node root stack < g →
      resolveRefsFuel f node root stack memo inPoly = resolveRefsFuel g node root stack memo inPoly := by
  intro f
  induction f using Nat.strong_induction_on with
  | _ f IH =>
  intro g node root stack memo inPoly hf hg
  have hpos : 1 ≤ jsize node := jsize_pos node
  have hm : 1 ≤ rMeasure node root stack := by unfold rMeasure; omega
  cases f with
  | zero => omega
  | succ f1 =>
  cases g with
  | zero => omega
  | succ g1 =>
  have step : ∀ (c : Json) (stack2 : List String) (m : Memo) (b : Bool),
      rMeasure c root stack2 < rMeasure node root stack →
      resolveRefsFuel f1 c root stack2 m b = resolveRefsFuel g1 c root stack2 m b := by
    intro c stack2 m b hc
    exact IH f1 (by omega) g1 c root stack2 m b (by omega) (by omega)
  cases node with
  | null => rfl
  | bool b => rfl
  | num n => rfl
  | str s => rfl
  | arr xs =>
      simp only [resolveRefsFuel]
      have hl : resolveList (fun o m => resolveRefsFuel f1 o root stack m inPoly) xs memo
           = resolveList (fun o m => resolveRefsFuel g1 o root stack m inPoly) xs memo := by
        apply resolveList_congr
        intro x hx m
        exact step x stack m inPoly (rMeasure_lt_of_elem xs x root stack hx)
      rw [hl]
  | obj kvs =>
      simp only [resolveRefsFuel]
      rcases ha : compItems kvs "anyOf" with _ | items
      case succ.succ.obj.some =>
        simp only []
        have hb : resolveList (fun o m => resolveRefsFuel f1 o root stack m true) items memo
             = resolveList (fun o m => resolveRefsFuel g1 o root stack m true) items memo := by
          apply resolveList_congr
          intro x hx m
          exact step x stack m true (rMeasure_lt_of_item kvs "anyOf" items x root stack
            (compItems_eq_some kvs "anyOf" items ha) hx)
        rw [hb]
        have hr := resolveKVs_congr (fun o m => resolveRefsFuel f1 o root stack m inPoly)
          (fun o m => resolveRefsFuel g1 o root stack m inPoly)
          (kvs.filter fun p => p.1 ≠ "anyOf")
          (fun p hp m => step p.2 stack m inPoly
            (rMeasure_lt_of_value kvs p root stack (List.mem_of_mem_filter hp)))
        rw [hr]
      case succ.succ.obj.none =>
      rcases hb : compItems kvs "oneOf" with _ | items
      case some =>
        simp only []
        have hbr : resolveList (fun o m => resolveRefsFuel f1 o root stack m true) items memo
             = resolveList (fun o m => resolveRefsFuel g1 o root stack m true) items memo := by
          apply resolveList_congr
          intro x hx m
          exact step x stack m true (rMeasure_lt_of_item kvs "oneOf" items x root stack
            (compItems_eq_some kvs "oneOf" items hb) hx)
        rw [hbr]
        have hr := resolveKVs_congr (fun o m => resolveRefsFuel f1 o root stack m inPoly)
          (fun o m => resolveRefsFuel g1 o root stack m inPoly)
          (kvs.filter fun p => p.1 ≠ "oneOf")
          (fun p hp m => step p.2 stack m inPoly
            (rMeasure_lt_of_value kvs p root stack (List.mem_of_mem_filter hp)))
        rw [hr]
      case none =>
      rcases hc : compItems kvs "allOf" with _ | items
      case some =>
        simp only []
        have hbr : resolveList (fun o m => resolveRefsFuel f1 o root stack m true) items memo
             = resolveList (fun o m => resolveRefsFuel g1 o root stack m true) items memo := by
          apply resolveList_congr
          intro x hx m
          exact step x stack m true (rMeasure_lt_of_item kvs "allOf" items x root stack
            (compItems_eq_some kvs "allOf" items hc) hx)
        rw [hbr]
        have hr := resolveKVs_congr (fun o m => resolveRefsFuel f1 o root stack m inPoly)
          (fun o m => resolveRefsFuel g1 o root stack m inPoly)
          (kvs.filter fun p => p.1 ≠ "allOf")
          (fun p hp m => step p.2 stack m inPoly
            (rMeasure_lt_of_value kvs p root stack (List.mem_of_mem_filter hp)))
        rw [hr]
      case none =>
      rcases hp : pureRefOf kvs with _ | refPath
      case none =>
        simp only []
        have hr := resolveKVs_congr (fun o m => resolveRefsFuel f1 o root stack m inPoly)
          (fun o m => resolveRefsFuel g1 o root stack m inPoly) kvs
          (fun p hpm m => step p.2 stack m inPoly (rMeasure_lt_of_value kvs p root stack hpm))
        rw [hr]
      case some =>
        simp only []
        have hkvs := pureRefOf_eq_some kvs refPath hp
        rcases hlr : lookupRef root refPath with _ | target
        case none =>
          split
          · rfl
          · split
            · rfl
            · split
              · rfl
              · split
                · rfl
                · rfl
        case some =>
          split
          · rfl
          · split
            · rfl
            · split
              · rfl
              · split
                · rfl
                · next hnotstack =>
                  dsimp only
                  have hjump : rMeasure target root (stack ++ [refPath]) <
                      rMeasure (Json.obj kvs) root stack := by
                    apply rMeasure_lt_jump _ _ _ _ _ hlr
                    · rw [hkvs]
                      simp [refStrings, refStringsKVs]
                    · exact hnotstack
                  rw [step target (stack ++ [refPath]) memo inPoly hjump]

/-- Claim C4: for every input document (including mutually or self-referential
pointer graphs) reference resolution terminates.  Formally: the fuelled
embedding of the resolver is independent of the recursion allowance once the
allowance exceeds the explicit bound `rMeasure`, which counts one traversal of
the root document per pointer that the stack-membership check can still admit;
the recursion of the source therefore bottoms out within that bound — no
branch passes through the same pointer twice without first producing the cycle
placeholder (a repeated pointer is caught by the stack check and never
recurses). -/
theorem claim_C4_resolution_terminates :
    ∀ (node root : Json) (stack : List String) (memo : Memo) (inPoly : Bool) (f g : Nat),
      rMeasure node root stack < f → rMeasure node root stack < g →
      resolveRefsFuel f node root stack memo inPoly = resolveRefsFuel g node root stack memo inPoly :=
  fun node root stack memo inPoly f g hf hg =>
    resolveRefsFuel_stable f g node root stack memo inPoly hf hg

/-- Witness for C4 at a concrete document and two concrete allowances. -/
theorem claim_C4_witness :
    rMeasure (Json.obj [("a", Json.str "#/a")]) (Json.obj [("a", Json.str "#/a")]) [] < 9 ∧
    rMeasure (Json.obj [("a", Json.str "#/a")]) (Json.obj [("a", Json.str "#/a")]) [] < 17 ∧
    resolveRefsFuel 9 (Json.obj [("a", Json.str "#/a")]) (Json.obj [("a", Json.str "#/a")]) [] [] false =
      resolveRefsFuel 17 (Json.obj [("a", Json.str "#/a")]) (Json.obj [("a", Json.str "#/a")]) [] [] false := by
  have h1 : rMeasure (Json.obj [("a", Json.str "#/a")]) (Json.obj [("a", Json.str "#/a")]) [] < 9 := by
    simp [rMeasure, jsize, jsizeKVs, refStrings, refStringsKVs]
  have h2 : rMeasure (Json.obj [("a", Json.str "#/a")]) (Json.obj [("a", Json.str "#/a")]) [] < 17 := by
    simp [rMeasure, jsize, jsizeKVs, refStrings, refStringsKVs]
  exact ⟨h1, h2, claim_C4_resolution_terminates _ _ _ _ _ 9 17 h1 h2⟩

/-- Claim C1 (recorded as a code bug): the specification says a `$ref` whose
pointer path does not exist resolves to the placeholder
`{type: "object", description: "Unresolved reference"}` and is memoized.  The
code disagrees: `lookupRef` reports a missing path by returning `null`, never
by throwing, so the catch handler that builds that placeholder (and the
comment on it, "If lookup fails, return a placeholder") is dead code and the
resolver falls through to `return obj` — the `$ref` node comes back unchanged
and nothing is memoized.  Evaluated here at the failing input
`{"$ref": "#/definitions/Missing"}` against the document
`{definitions: {}}`, at two different recursion allowances. -/
theorem claim_C1_missing_ref_returns_node_unchanged :
    resolveRefsFuel 6 (Json.obj [("$ref", Json.str "#/definitions/Missing")])
        (Json.obj [("definitions", Json.obj [])]) [] [] false
      = (Json.obj [("$ref", Json.str "#/definitions/Missing")], []) ∧
    resolveRefsFuel 40 (Json.obj [("$ref", Json.str "#/definitions/Missing")])
        (Json.obj [("definitions", Json.obj [])]) [] [] false
      = (Json.obj [("$ref", Json.str "#/definitions/Missing")], []) ∧
    Json.obj [("$ref", Json.str "#/definitions/Missing")] ≠ unresolvedPlaceholder := by
  refine ⟨rfl, rfl, ?_⟩
  simp [unresolvedPlaceholder]

/-- Claim C5: for the document of the specification's example, whose schema
`A` is itself the node `{"$ref": "#/components/schemas/A"}`, resolving a
`$ref` to `A` outside any polymorphic keyword returns the cycle placeholder
`{type: "object", description: "Circular reference"}` and memoizes it for the
pointer — for every sufficient recursion allowance. -/
theorem claim_C5_circular_ref_placeholder :
    ∀ f, rMeasure (Json.obj [("$ref", Json.str "#/components/schemas/A")])
        (Json.obj [("components", Json.obj [("schemas", Json.obj
          [("A", Json.obj [("$ref", Json.str "#/components/schemas/A")])])])]) [] < f →
      resolveRefsFuel f (Json.obj [("$ref", Json.str "#/components/schemas/A")])
        (Json.obj [("components", Json.obj [("schemas", Json.obj
          [("A", Json.obj [("$ref", Json.str "#/components/schemas/A")])])])]) [] [] false
      = (circularPlaceholder, [("#/components/schemas/A", circularPlaceholder)]) := by
  intro f hf
  have hb : rMeasure (Json.obj [("$ref", Json.str "#/components/schemas/A")])
      (Json.obj [("components", Json.obj [("schemas", Json.obj
        [("A", Json.obj [("$ref", Json.str "#/components/schemas/A")])])])]) [] < 9 := by
    simp [rMeasure, jsize, jsizeKVs, refStrings, refStringsKVs]
  rw [resolveRefsFuel_stable f 9 _ _ _ _ _ hf hb]
  rfl

/-- Witness for C5 at the allowance 9. -/
theorem claim_C5_witness :
    rMeasure (Json.obj [("$ref", Json.str "#/components/schemas/A")])
        (Json.obj [("components", Json.obj [("schemas", Json.obj
          [("A", Json.obj [("$ref", Json.str "#/components/schemas/A")])])])]) [] < 9 ∧
    resolveRefsFuel 9 (Json.obj [("$ref", Json.str "#/components/schemas/A")])
        (Json.obj [("components", Json.obj [("schemas", Json.obj
          [("A", Json.obj [("$ref", Json.str "#/components/schemas/A")])])])]) [] [] false
      = (circularPlaceholder, [("#/components/schemas/A", circularPlaceholder)]) := by
  have hb : rMeasure (Json.obj [("$ref", Json.str "#/components/schemas/A")])
      (Json.obj [("components", Json.obj [("schemas", Json.obj
        [("A", Json.obj [("$ref", Json.str "#/components/schemas/A")])])])]) [] < 9 := by
    simp [rMeasure, jsize, jsizeKVs, refStrings, refStringsKVs]
  exact ⟨hb, claim_C5_circular_ref_placeholder 9 hb⟩

/-- The claim's Swagger-2 acceptance condition: the `swagger` value is a
string starting with "2.". -/
def isSwagger2Version (v : Json) : Bool :=
  match v with
  | Json.str s => strStartsWith s "2."
  | _ => false

/-- The claim's OpenAPI tag selection: string prefixes "3.0", "3.1", "3.2"
tried in that order, no match meaning unsupported. -/
def claimOpenApiTag (v : Json) : Option SpecVersion :=
  match v with
  | Json.str s =>
      if strStartsWith s "3.0" then some SpecVersion.openapi_3_0
      else if strStartsWith s "3.1" then some SpecVersion.openapi_3_1
      else if strStartsWith s "3.2" then some SpecVersion.openapi_3_2
      else none
  | _ => none

/-- Claim C9: version detection accepts a `swagger` field exactly when its
value is a string starting with "2." (otherwise an unsupported-version
error); otherwise an `openapi` field is matched against the prefixes "3.0",
"3.1", "3.2" in that order (no match: unsupported-version error); with
neither field the missing-version-field error is produced. -/
theorem claim_C9_version_detection (spec : Json) :
    (∀ v, jsGet spec "swagger" = some v →
        detectSpecVersion spec =
          (if isSwagger2Version v then Except.ok SpecVersion.swagger_2
           else Except.error ("Unsupported Swagger version: " ++ jsToString v))) ∧
    (jsGet spec "swagger" = none → ∀ v, jsGet spec "openapi" = some v →
        detectSpecVersion spec =
          (match claimOpenApiTag v with
           | some t => Except.ok t
           | none => Except.error ("Unsupported OpenAPI version: " ++ jsToString v))) ∧
    (jsGet spec "swagger" = none → jsGet spec "openapi" = none →
        detectSpecVersion spec = Except.error missingVersionMsg) := by
  refine ⟨?_, ?_, ?_⟩
  · intro v hv
    unfold detectSpecVersion jsHas
    rw [hv]
    cases v with
    | str s =>
        by_cases h2 : strStartsWith s "2." <;>
          simp [isSwagger2Version, jsToString, h2]
    | null => simp [isSwagger2Version, jsToString]
    | bool b => cases b <;> simp [isSwagger2Version, jsToString]
    | num n => simp [isSwagger2Version, jsToString]
    | arr xs => simp [isSwagger2Version, jsToString]
    | obj kvs => simp [isSwagger2Version, jsToString]
  · intro hsw v hv
    unfold detectSpecVersion jsHas
    rw [hsw, hv]
    cases v with
    | str s =>
        by_cases h0 : strStartsWith s "3.0" <;>
          by_cases h1 : strStartsWith s "3.1" <;>
            by_cases h2 : strStartsWith s "3.2" <;>
              simp [claimOpenApiTag, jsToString, h0, h1, h2]
    | null => simp [claimOpenApiTag, jsToString]
    | bool b => cases b <;> simp [claimOpenApiTag, jsToString]
    | num n => simp [claimOpenApiTag, jsToString]
    | arr xs => simp [claimOpenApiTag, jsToString]
    | obj kvs => simp [claimOpenApiTag, jsToString]
  · intro hsw hoa
    unfold detectSpecVersion jsHas
    rw [hsw, hoa]
    rfl

/-- Witness for C9 on the four documents of the specification's test list. -/
theorem claim_C9_witness :
    detectSpecVersion (Json.obj [("swagger", Json.str "2.0")]) = Except.ok SpecVersion.swagger_2 ∧
    detectSpecVersion (Json.obj [("openapi", Json.str "3.1.2")]) = Except.ok SpecVersion.openapi_3_1 ∧
    detectSpecVersion (Json.obj [("openapi", Json.str "4.0.0")])
      = Except.error "Unsupported OpenAPI version: 4.0.0" ∧
    detectSpecVersion (Json.obj []) = Except.error missingVersionMsg := by
  refine ⟨?_, ?_, ?_, ?_⟩
  · have h := (claim_C9_version_detection (Json.obj [("swagger", Json.str "2.0")])).1
      (Json.str "2.0") rfl
    rw [h]; rfl
  · have h := (claim_C9_version_detection (Json.obj [("openapi", Json.str "3.1.2")])).2.1
      rfl (Json.str "3.1.2") rfl
    rw [h]; rfl
  · have h := (claim_C9_version_detection (Json.obj [("openapi", Json.str "4.0.0")])).2.1
      rfl (Json.str "4.0.0") rfl
    rw [h]; rfl
  · exact (claim_C9_version_detection (Json.obj [])).2.2 rfl rfl

/-- Claim C10: with no base-URL override, an OpenAPI 3.x document without a
non-empty `servers` array, or a Swagger 2 document without a `host` field,
still parses successfully and the returned `base_url` is the empty string. -/
theorem claim_C10_missing_base_url (fuel : Nat) (spec : Json) (v : SpecVersion)
    (hdet : detectSpecVersion spec = Except.ok v) :
    (v ≠ SpecVersion.swagger_2 →
      (match jsGet spec "servers" with
       | some (Json.arr (_ :: _)) => False
       | _ => True) →
      ∃ r, parse fuel spec none none none = Except.ok r ∧ r.base_url = "") ∧
    (v = SpecVersion.swagger_2 → jsGet spec "host" = none →
      ∃ r, parse fuel spec none none none = Except.ok r ∧ r.base_url = "") := by
  have hparse : parse fuel spec none none none = Except.ok (parseOpenApiSpec fuel v spec none) := by
    unfold parse
    rw [hdet]
  have hbase : (parseOpenApiSpec fuel v spec none).base_url = extractBaseUrl v spec := rfl
  constructor
  · intro hv hserv
    refine ⟨_, hparse, ?_⟩
    rw [hbase]
    unfold extractBaseUrl
    rw [if_neg hv]
    rcases hs : jsGet spec "servers" with _ | sv
    · rfl
    · rw [hs] at hserv
      cases sv with
      | arr xs =>
          cases xs with
          | nil => simp [truthy, hasPositiveLength]
          | cons a as => simp at hserv
      | null => simp [truthy]
      | bool b => cases b <;> simp [truthy, hasPositiveLength]
      | num n => simp [hasPositiveLength]
      | obj kvs => simp [hasPositiveLength]
      | str s =>
          by_cases hemp : s = ""
          · subst hemp
            simp [truthy]
          · have hchars : ∃ c cs, chars s = c :: cs := by
              cases hc : chars s with
              | nil =>
                  exfalso
                  apply hemp
                  have hmk : s = String.mk (chars s) := rfl
                  rw [hc] at hmk
                  exact hmk
              | cons c cs => exact ⟨c, cs, rfl⟩
            obtain ⟨c, cs, hc⟩ := hchars
            have hlen : hasPositiveLength (Json.str s) = true := by
              have h1 : s.length = (chars s).length := rfl
              simp only [hasPositiveLength]
              rw [h1, hc]
              simp
            simp only [truthy, hlen, jsIndex0, hc]
            simp [hemp, jsGet, jsOr, jsToString]
  · intro hv hhost
    subst hv
    refine ⟨_, hparse, ?_⟩
    rw [hbase]
    unfold extractBaseUrl
    rw [if_pos rfl]
    simp [hhost, jsOr, truthy]

/-- Witness for C10: a server-less OpenAPI 3.0 document and a host-less
Swagger 2 document, both parsing to an empty base URL. -/
theorem claim_C10_witness :
    detectSpecVersion (Json.obj [("openapi", Json.str "3.0.1")]) = Except.ok SpecVersion.openapi_3_0 ∧
    (∃ r, parse 3 (Json.obj [("openapi", Json.str "3.0.1")]) none none none = Except.ok r ∧
      r.base_url = "") ∧
    detectSpecVersion (Json.obj [("swagger", Json.str "2.0")]) = Except.ok SpecVersion.swagger_2 ∧
    (∃ r, parse 3 (Json.obj [("swagger", Json.str "2.0")]) none none none = Except.ok r ∧
      r.base_url = "") := by
  refine ⟨rfl, ?_, rfl, ?_⟩
  · exact (claim_C10_missing_base_url 3 (Json.obj [("openapi", Json.str "3.0.1")])
      SpecVersion.openapi_3_0 rfl).1 (by decide) trivial
  · exact (claim_C10_missing_base_url 3 (Json.obj [("swagger", Json.str "2.0")])
      SpecVersion.swagger_2 rfl).2 rfl rfl

/-- The claim's selector: the first remaining path segment after the
segmentation steps, if any. -/
def firstResourceSegment (pathPref : Option String) (tool : OCPTool) : Option String :=
  match pathSegments pathPref tool.path with
  | [] => none
  | s :: _ => some (String.mk s)

theorem contains_map_strToLower (rs : List String) (x : String) :
    (rs.map strToLower).contains x = rs.any fun r => strToLower r == x := by
  induction rs with
  | nil => rfl
  | cons r rest ih =>
      simp only [List.map_cons, List.contains_cons, List.any_cons, ih]
      have hsymm : (x == strToLower r) = (strToLower r == x) := by
        by_cases h : x = strToLower r
        · subst h; rfl
        · simp [h, Ne.symm h]
      rw [hsymm]

theorem keepTool_eq_claim (resources : List String) (pathPref : Option String) (tool : OCPTool) :
    keepTool (resources.map strToLower) pathPref tool =
      (match firstResourceSegment pathPref tool with
       | some seg => resources.any fun r => strToLower r == seg
       | none => false) := by
  unfold keepTool firstResourceSegment
  cases pathSegments pathPref tool.path with
  | nil => rfl
  | cons s rest =>
      simp only []
      exact contains_map_strToLower resources (String.mk s)

/-- A minimal tool carrying only a path, for the concrete filter example. -/
def sampleTool (path : String) : OCPTool :=
  { name := "t", description := Json.null, method := "GET", path := path,
    parameters := [], response_schema := none, operation_id := none, tags := Json.arr [] }

/-- Claim C8: with an empty resource list the filter returns its input
unchanged; otherwise a tool is kept exactly when the first remaining path
segment (after the optional case-insensitive prefix strip, dot-to-slash
normalisation, splitting on slashes, and dropping empty and placeholder
segments) equals one of the resource names up to case — never by substring
containment, as the specification's own example shows: with resource
`repos`, the path `/user/repos` is excluded while the two `/repos/...` paths
are kept. -/
theorem claim_C8_resource_filter :
    (∀ (tools : List OCPTool) (resources : List String) (pathPref? : Option String),
      filterToolsByResources tools resources pathPref? =
        (if resources.isEmpty then tools
         else tools.filter fun tool =>
           match firstResourceSegment pathPref? tool with
           | some seg => resources.any fun r => strToLower r == seg
           | none => false)) ∧
    filterToolsByResources
      [sampleTool "/repos/\x7bowner\x7d/\x7brepo\x7d",
       sampleTool "/repos/\x7bowner\x7d/\x7brepo\x7d/issues",
       sampleTool "/user/repos"] ["repos"] none =
      [sampleTool "/repos/\x7bowner\x7d/\x7brepo\x7d",
       sampleTool "/repos/\x7bowner\x7d/\x7brepo\x7d/issues"] := by
  constructor
  · intro tools resources pathPref?
    unfold filterToolsByResources
    by_cases he : resources.isEmpty
    · simp [he]
    · simp only [he, Bool.false_eq_true, if_false]
      exact List.filter_congr fun tool _ => keepTool_eq_claim resources pathPref? tool
  · rfl

/-- The synthesized fallback name exactly as the claim words it: the
lowercased method concatenated with the path with every '/' removed and both
curly braces removed, then normalized. -/
def claimFallbackName (method path : String) : String :=
  normalizeToolName (strToLower method ++
    String.mk ((chars path).filter fun c => c ≠ '/' ∧ c ≠ lbrace ∧ c ≠ rbrace))

/-- Counterexample to claim C2 as stated: for the operation `get /users/{id}`
without an operationId the source replaces slashes by underscores (line 182)
rather than removing them, so the produced tool name is `getUsersId`, while
the claim's recipe (slashes removed) normalizes to `getusersid`. -/
theorem claim_C2_counterexample :
    ((createToolFromOperation 5 SpecVersion.openapi_3_0 "/users/\x7bid\x7d" "get"
        (Json.obj []) (Json.obj []) []).1.map (fun t => t.name) = some "getUsersId") ∧
    claimFallbackName "get" "/users/\x7bid\x7d" = "getusersid" ∧
    "getUsersId" ≠ "getusersid" := by
  refine ⟨rfl, rfl, by decide⟩

/-- Claim C2 as amended: when the operationId is absent or normalizes to an
invalid name, the tool name is `normalize(lowercased method ++ path with '/'
replaced by '_' and curly braces removed)`; if that is still invalid the
operation contributes no tool. -/
theorem claim_C2_fallback_naming (fuel : Nat) (v : SpecVersion) (path method : String)
    (kvs : List (String × Json)) (specData : Json) (memo : Memo)
    (hop : match kvsLookup kvs "operationId" with
           | none => True
           | some (Json.str s) => isValidToolName (normalizeToolName s) = false
           | some _ => False) :
    (isValidToolName (normalizeToolName (strToLower method ++ cleanPathForName path)) = true →
      ∃ t m2, createToolFromOperation fuel v path method (Json.obj kvs) specData memo
          = (some t, m2) ∧
        t.name = normalizeToolName (strToLower method ++ cleanPathForName path)) ∧
    (isValidToolName (normalizeToolName (strToLower method ++ cleanPathForName path)) = false →
      (createToolFromOperation fuel v path method (Json.obj kvs) specData memo).1 = none) := by
  have hfrom : (match jsGet (Json.obj kvs) "operationId" with
      | some (Json.str s) =>
          if s ≠ "" then
            let n := normalizeToolName s
            if isValidToolName n then some n else none
          else none
      | _ => none) = (none : Option String) := by
    show (match kvsLookup kvs "operationId" with
      | some (Json.str s) =>
          if s ≠ "" then
            let n := normalizeToolName s
            if isValidToolName n then some n else none
          else none
      | _ => none) = (none : Option String)
    rcases hk : kvsLookup kvs "operationId" with _ | v0
    · rfl
    · rw [hk] at hop
      cases v0 with
      | str s => simp [hop]
      | null => exact hop.elim
      | bool b => exact hop.elim
      | num n => exact hop.elim
      | arr xs => exact hop.elim
      | obj kvs2 => exact hop.elim
  constructor
  · intro hval
    simp only [createToolFromOperation, isObjectLike, Bool.not_true, Bool.false_eq_true,
      if_false, hfrom, hval, if_true]
    exact ⟨_, _, rfl, rfl⟩
  · intro hval
    simp only [createToolFromOperation, isObjectLike, Bool.not_true, Bool.false_eq_true,
      if_false, hfrom, hval]
    rfl

/-- Witness for the amended C2 at `get /users` with no operationId. -/
theorem claim_C2_fallback_naming_witness :
    (match kvsLookup ([] : List (String × Json)) "operationId" with
     | none => True
     | some (Json.str s) => isValidToolName (normalizeToolName s) = false
     | some _ => False) ∧
    isValidToolName (normalizeToolName (strToLower "get" ++ cleanPathForName "/users")) = true ∧
    (∃ t m2, createToolFromOperation 3 SpecVersion.openapi_3_0 "/users" "get"
        (Json.obj []) (Json.obj []) [] = (some t, m2) ∧
      t.name = normalizeToolName (strToLower "get" ++ cleanPathForName "/users")) := by
  refine ⟨trivial, rfl, ?_⟩
  exact (claim_C2_fallback_naming 3 SpecVersion.openapi_3_0 "/users" "get" [] (Json.obj []) []
    trivial).1 rfl

/-- The response selection exactly as the claim words it: the first status key
with string prefix "2" determines the outcome — its schema (Swagger 2
directly, OpenAPI 3.x under `content["application/json"]`), or nothing if
that key carries none; keys are never skipped in favour of later ones. -/
def claimResponseSchema (v : SpecVersion) (responses : Json) : Option Json :=
  match (entriesOf responses).find? (fun p => strStartsWith p.1 "2") with
  | some p =>
      match v with
      | SpecVersion.swagger_2 => jsGet p.2 "schema"
      | _ =>
          match jsGet (jsOr (jsGet p.2 "content") (Json.obj [])) "application/json" with
          | some jc => jsGet jc "schema"
          | none => none
  | none => none

/-- Counterexample to claim C3 as stated: for the Swagger-2 responses object
`{"200": {}, "201": {schema: {type: "string"}}}` the first `2`-prefixed key is
`"200"`, which carries no schema — the claim therefore assigns the tool no
response schema — yet the source skips it and returns the resolved schema of
`"201"`. -/
theorem claim_C3_counterexample :
    parseResponses 5 SpecVersion.swagger_2
        (Json.obj [("200", Json.obj []),
                   ("201", Json.obj [("schema", Json.obj [("type", Json.str "string")])])])
        (Json.obj []) []
      = (some (Json.obj [("type", Json.str "string")]), []) ∧
    claimResponseSchema SpecVersion.swagger_2
        (Json.obj [("200", Json.obj []),
                   ("201", Json.obj [("schema", Json.obj [("type", Json.str "string")])])])
      = none := ⟨rfl, rfl⟩

/-- The scan the source actually performs, separated from resolution: the
first `2`-prefixed status key whose value is an object carrying a truthy
schema (Swagger 2: `response.schema`; OpenAPI 3.x: a truthy
`content["application/json"]` with a truthy `schema`); anything else is
skipped and the scan continues. -/
def firstExtractableSchema (v : SpecVersion) : List (String × Json) → Option Json
  | [] => none
  | (statusCode, resp) :: rest =>
      if strStartsWith statusCode "2" && isObjectLike resp then
        match v with
        | SpecVersion.swagger_2 =>
            match jsGet resp "schema" with
            | some sv => if truthy sv then some sv else firstExtractableSchema v rest
            | none => firstExtractableSchema v rest
        | _ =>
            match jsGet (jsOr (jsGet resp "content") (Json.obj [])) "application/json" with
            | some jc =>
                if truthy jc then
                  match jsGet jc "schema" with
                  | some sc => if truthy sc then some sc else firstExtractableSchema v rest
                  | none => firstExtractableSchema v rest
                else firstExtractableSchema v rest
            | none => firstExtractableSchema v rest
      else firstExtractableSchema v rest

theorem parseResponsesGo_scan (fuel : Nat) (v : SpecVersion) (specData : Json) :
    ∀ (l : List (String × Json)) (memo : Memo),
      parseResponsesGo fuel v specData l memo =
        match firstExtractableSchema v l with
        | some s =>
            (some (resolveRefsFuel fuel s specData [] memo false).1,
             (resolveRefsFuel fuel s specData [] memo false).2)
        | none => (none, memo) := by
  intro l
  induction l with
  | nil => intro memo; rfl
  | cons p rest ih =>
      intro memo
      obtain ⟨statusCode, resp⟩ := p
      by_cases hc : (strStartsWith statusCode "2" && isObjectLike resp) = true
      · cases v with
        | swagger_2 =>
            simp only [parseResponsesGo, firstExtractableSchema, hc, if_true]
            rcases hsv : jsGet resp "schema" with _ | sv
            · exact ih memo
            · by_cases ht : truthy sv = true
              · simp [ht]
              · simp [ht, ih memo]
        | openapi_3_0 =>
            simp only [parseResponsesGo, firstExtractableSchema, hc, if_true]
            rcases hjc : jsGet (jsOr (jsGet resp "content") (Json.obj [])) "application/json"
              with _ | jc
            · exact ih memo
            · by_cases ht : truthy jc = true
              · simp only [ht, if_true]
                rcases hsc : jsGet jc "schema" with _ | sc
                · exact ih memo
                · by_cases ht2 : truthy sc = true
                  · simp [ht2]
                  · simp [ht2, ih memo]
              · simp [ht, ih memo]
        | openapi_3_1 =>
            simp only [parseResponsesGo, firstExtractableSchema, hc, if_true]
            rcases hjc : jsGet (jsOr (jsGet resp "content") (Json.obj [])) "application/json"
              with _ | jc
            · exact ih memo
            · by_cases ht : truthy jc = true
              · simp only [ht, if_true]
                rcases hsc : jsGet jc "schema" with _ | sc
                · exact ih memo
                · by_cases ht2 : truthy sc = true
                  · simp [ht2]
                  · simp [ht2, ih memo]
              · simp [ht, ih memo]
        | openapi_3_2 =>
            simp only [parseResponsesGo, firstExtractableSchema, hc, if_true]
            rcases hjc : jsGet (jsOr (jsGet resp "content") (Json.obj [])) "application/json"
              with _ | jc
            · exact ih memo
            · by_cases ht : truthy jc = true
              · simp only [ht, if_true]
                rcases hsc : jsGet jc "schema" with _ | sc
                · exact ih memo
                · by_cases ht2 : truthy sc = true
                  · simp [ht2]
                  · simp [ht2, ih memo]
              · simp [ht, ih memo]
      · simp only [parseResponsesGo, firstExtractableSchema, hc]
        simp only [Bool.false_eq_true, if_false]
        exact ih memo

/-- Claim C3 as amended: the response schema is the resolved schema of the
first `2`-prefixed status key (scanned in the object's own property order)
whose value is an object actually carrying a schema — Swagger 2 from
`response.schema`, OpenAPI 3.x from `content["application/json"].schema`;
`2`-prefixed keys without an extractable schema are skipped and scanning
continues; with no such key the tool simply has no response schema and the
memo cache is left untouched (no error is raised). -/
theorem claim_C3_response_scan (fuel : Nat) (v : SpecVersion) (responses specData : Json)
    (memo : Memo) :
    parseResponses fuel v responses specData memo =
      match firstExtractableSchema v (entriesOf responses) with
      | some s =>
          (some (resolveRefsFuel fuel s specData [] memo false).1,
           (resolveRefsFuel fuel s specData [] memo false).2)
      | none => (none, memo) :=
  parseResponsesGo_scan fuel v specData (entriesOf responses) memo

/-- The claim's notion of an object-shaped schema: a mapping with
`type: "object"` or with a `properties` key. -/
def objectShaped (t : Json) : Bool :=
  match t with
  | Json.obj tkvs =>
      (match kvsLookup tkvs "type" with
       | some (Json.str s) => s = "object"
       | _ => false) || (kvsLookup tkvs "properties").isSome
  | _ => false

theorem objectShaped_inPolyKeep (t : Json) (h : objectShaped t = true) : inPolyKeep t = true := by
  cases t with
  | obj tkvs => exact h
  | null => simp [objectShaped] at h
  | bool b => simp [objectShaped] at h
  | num n => simp [objectShaped] at h
  | str s => simp [objectShaped] at h
  | arr xs => simp [objectShaped] at h

/-- Claim C7: a pure internal `$ref` encountered while inside a polymorphic
keyword is returned unexpanded when its target exists and is object-shaped
(`type: "object"` or a `properties` key), and also when the lookup fails —
in the failure case the source falls through to its main path, misses the
memo (an unresolvable pointer is never memoized or pushed during a parse,
which the stated side conditions record) and reaches `return obj`.  By
contraposition only refs to existing non-object-shaped targets are expanded
under a polymorphic keyword. -/
theorem claim_C7_poly_ref_guard (fuel : Nat) (root : Json) (stack : List String) (memo : Memo)
    (p : String) (hstart : strStartsWith p "#/" = true) :
    (∀ t, lookupRef root p = some t → objectShaped t = true →
        resolveRefsFuel (fuel + 1) (Json.obj [("$ref", Json.str p)]) root stack memo true
          = (Json.obj [("$ref", Json.str p)], memo)) ∧
    (lookupRef root p = none → kvsLookup memo p = none → p ∉ stack →
        resolveRefsFuel (fuel + 1) (Json.obj [("$ref", Json.str p)]) root stack memo true
          = (Json.obj [("$ref", Json.str p)], memo)) := by
  have ha : compItems [("$ref", Json.str p)] "anyOf" = none := rfl
  have hb : compItems [("$ref", Json.str p)] "oneOf" = none := rfl
  have hc : compItems [("$ref", Json.str p)] "allOf" = none := rfl
  have hpr : pureRefOf [("$ref", Json.str p)] = some p := rfl
  constructor
  · intro t hl hshaped
    have hkeep : inPolyKeep t = true := objectShaped_inPolyKeep t hshaped
    simp only [resolveRefsFuel, ha, hb, hc, hpr]
    simp [hstart, hl, hkeep]
  · intro hl hm hs
    simp only [resolveRefsFuel, ha, hb, hc, hpr]
    simp [hstart, hl, hm, hs]

/-- Witness for C7: an object-shaped target keeps its ref unexpanded, and so
does a ref to a missing path, both inside a polymorphic keyword. -/
theorem claim_C7_witness :
    resolveRefsFuel 4 (Json.obj [("$ref", Json.str "#/components/schemas/User")])
        (Json.obj [("components", Json.obj [("schemas", Json.obj
          [("User", Json.obj [("type", Json.str "object")])])])]) [] [] true
      = (Json.obj [("$ref", Json.str "#/components/schemas/User")], []) ∧
    resolveRefsFuel 4 (Json.obj [("$ref", Json.str "#/components/schemas/Missing")])
        (Json.obj [("components", Json.obj [("schemas", Json.obj
          [("User", Json.obj [("type", Json.str "object")])])])]) [] [] true
      = (Json.obj [("$ref", Json.str "#/components/schemas/Missing")], []) := by
  constructor
  · exact (claim_C7_poly_ref_guard 3
      (Json.obj [("components", Json.obj [("schemas", Json.obj
        [("User", Json.obj [("type", Json.str "object")])])])]) [] []
      "#/components/schemas/User" rfl).1
      (Json.obj [("type", Json.str "object")]) rfl rfl
  · exact (claim_C7_poly_ref_guard 3
      (Json.obj [("components", Json.obj [("schemas", Json.obj
        [("User", Json.obj [("type", Json.str "object")])])])]) [] []
      "#/components/schemas/Missing" rfl).2 rfl rfl (by simp)

mutual
/-- The claim's side condition: no mapping anywhere in the tree carries a
`$ref` key. -/
def noRefKey : Json → Bool
  | Json.obj kvs => noRefKeyKVs kvs
  | Json.arr xs => noRefKeyList xs
  | _ => true

/-- `noRefKey` over the elements of an array. -/
def noRefKeyList : List Json → Bool
  | [] => true
  | x :: xs => noRefKey x && noRefKeyList xs

/-- `noRefKey` over a property list, also requiring every key to differ from
`$ref`. -/
def noRefKeyKVs : List (String × Json) → Bool
  | [] => true
  | p :: rest => p.1 ≠ "$ref" && noRefKey p.2 && noRefKeyKVs rest
end

/-- A composition keyword, when present, must hold an array — on any other
value the source throws while mapping, so such documents are outside the
embedding (see `resolveRefsFuel`). -/
def compOk (kvs : List (String × Json)) (key : String) : Bool :=
  match kvsLookup kvs key with
  | some (Json.arr _) => true
  | some _ => false
  | none => true

mutual
/-- Well-formedness of a decoded document: every mapping has distinct keys
(JS objects cannot carry duplicates) and composition keywords hold arrays. -/
def wfDoc : Json → Bool
  | Json.obj kvs =>
      decide ((kvs.map Prod.fst).Nodup) &&
        compOk kvs "anyOf" && compOk kvs "oneOf" && compOk kvs "allOf" && wfDocKVs kvs
  | Json.arr xs => wfDocList xs
  | _ => true

/-- `wfDoc` over the elements of an array. -/
def wfDocList : List Json → Bool
  | [] => true
  | x :: xs => wfDoc x && wfDocList xs

/-- `wfDoc` over the values of a property list. -/
def wfDocKVs : List (String × Json) → Bool
  | [] => true
  | p :: rest => wfDoc p.2 && wfDocKVs rest
end

/-- Insertion into a key-sorted property list. -/
def insertPair (p : String × Json) : List (String × Json) → List (String × Json)
  | [] => [p]
  | q :: rest => if p.1 ≤ q.1 then p :: q :: rest else q :: insertPair p rest

/-- Key-insertion sort of a property list: the canonical key order by which
structural identity of mappings is compared (the resolver may move a
composition keyword to the front of a mapping, and the specification declares
key order irrelevant). -/
def sortPairs : List (String × Json) → List (String × Json)
  | [] => []
  | p :: rest => insertPair p (sortPairs rest)

mutual
/-- Canonical form of a tree: every mapping's properties sorted by key,
recursively.  Two trees are structurally identical in the claim's sense
exactly when their canonical forms are equal. -/
def canon : Json → Json
  | Json.obj kvs => Json.obj (sortPairs (canonKVs kvs))
  | Json.arr xs => Json.arr (canonList xs)
  | x => x

/-- `canon` over the elements of an array. -/
def canonList : List Json → List Json
  | [] => []
  | x :: xs => canon x :: canonList xs

/-- `canon` over the values of a property list. -/
def canonKVs : List (String × Json) → List (String × Json)
  | [] => []
  | p :: rest => (p.1, canon p.2) :: canonKVs rest
end

theorem insertPair_perm (p : String × Json) (l : List (String × Json)) :
    List.Perm (insertPair p l) (p :: l) := by
  induction l with
  | nil => rfl
  | cons q rest ih =>
      simp only [insertPair]
      by_cases h : p.1 ≤ q.1
      · simp [h]
      · simp only [h, if_false]
        exact (ih.cons q).trans (List.Perm.swap p q rest)

theorem sortPairs_perm (l : List (String × Json)) : List.Perm (sortPairs l) l := by
  induction l with
  | nil => rfl
  | cons p rest ih =>
      exact (insertPair_perm p (sortPairs rest)).trans (ih.cons p)

theorem insertPair_sorted (p : String × Json) (l : List (String × Json))
    (hs : List.Sorted (fun a b : String × Json => a.1 ≤ b.1) l) :
    List.Sorted (fun a b : String × Json => a.1 ≤ b.1) (insertPair p l) := by
  induction l with
  | nil => simp [insertPair]
  | cons q rest ih =>
      rw [List.sorted_cons] at hs
      obtain ⟨hq, hrest⟩ := hs
      simp only [insertPair]
      by_cases h : p.1 ≤ q.1
      · simp only [h, if_true]
        rw [List.sorted_cons]
        refine ⟨?_, ?_⟩
        · intro b hb
          rcases List.mem_cons.mp hb with hb | hb
          · subst hb; exact h
          · exact le_trans h (hq b hb)
        · rw [List.sorted_cons]
          exact ⟨hq, hrest⟩
      · simp only [h, if_false]
        rw [List.sorted_cons]
        refine ⟨?_, ih hrest⟩
        · intro b hb
          have hb2 := (insertPair_perm p rest).mem_iff.mp hb
          rcases List.mem_cons.mp hb2 with hb2 | hb2
          · subst hb2; exact le_of_not_le h
          · exact hq b hb2

theorem sortPairs_sorted (l : List (String × Json)) :
    List.Sorted (fun a b : String × Json => a.1 ≤ b.1) (sortPairs l) := by
  induction l with
  | nil => simp [sortPairs]
  | cons p rest ih => exact insertPair_sorted p (sortPairs rest) ih

theorem sorted_lt_of_nodup_keys (l : List (String × Json))
    (hs : List.Sorted (fun a b : String × Json => a.1 ≤ b.1) l)
    (hnd : (l.map Prod.fst).Nodup) :
    List.Sorted (fun a b : String × Json => a.1 < b.1) l := by
  have hne : List.Pairwise (fun a b : String × Json => a.1 ≠ b.1) l := by
    rw [List.Nodup, List.pairwise_map] at hnd
    exact hnd
  exact (hs.and hne).imp fun h => lt_of_le_of_ne h.1 h.2

theorem sortPairs_eq_of_perm (l1 l2 : List (String × Json)) (h : List.Perm l1 l2)
    (hnd : (l1.map Prod.fst).Nodup) : sortPairs l1 = sortPairs l2 := by
  have hnd2 : (l2.map Prod.fst).Nodup := ((h.map Prod.fst).nodup_iff).mp hnd
  have hp1 : ((sortPairs l1).map Prod.fst).Nodup :=
    (((sortPairs_perm l1).map Prod.fst).nodup_iff).mpr hnd
  have hp2 : ((sortPairs l2).map Prod.fst).Nodup :=
    (((sortPairs_perm l2).map Prod.fst).nodup_iff).mpr hnd2
  have hperm : List.Perm (sortPairs l1) (sortPairs l2) :=
    (sortPairs_perm l1).trans (h.trans (sortPairs_perm l2).symm)
  have hlt1 := sorted_lt_of_nodup_keys _ (sortPairs_sorted l1) hp1
  have hlt2 := sorted_lt_of_nodup_keys _ (sortPairs_sorted l2) hp2
  exact @List.eq_of_perm_of_sorted _ (fun a b : String × Json => a.1 < b.1)
    ⟨fun a b h1 h2 => (lt_asymm h1 h2).elim⟩ _ _ hperm hlt1 hlt2

theorem kvsLookup_mem (kvs : List (String × Json)) (k : String) (v : Json)
    (h : kvsLookup kvs k = some v) : (k, v) ∈ kvs := by
  induction kvs with
  | nil => simp [kvsLookup] at h
  | cons q rest ih =>
      simp only [kvsLookup] at h
      by_cases hk : q.1 = k
      · simp only [hk, if_true] at h
        injection h with h
        have hq : q = (k, v) := by
          rw [← hk, ← h]
        rw [← hq]
        exact List.mem_cons_self q rest
      · simp only [hk, if_false] at h
        exact List.mem_cons_of_mem q (ih h)

theorem noRefKeyList_mem (xs : List Json) (x : Json) (h : noRefKeyList xs = true)
    (hx : x ∈ xs) : noRefKey x = true := by
  induction xs with
  | nil => simp at hx
  | cons y rest ih =>
      simp only [noRefKeyList, Bool.and_eq_true] at h
      rcases List.mem_cons.mp hx with hx | hx
      · subst hx; exact h.1
      · exact ih h.2 hx

theorem noRefKeyKVs_mem (kvs : List (String × Json)) (p : String × Json)
    (h : noRefKeyKVs kvs = true) (hp : p ∈ kvs) : noRefKey p.2 = true := by
  induction kvs with
  | nil => simp at hp
  | cons q rest ih =>
      simp only [noRefKeyKVs, Bool.and_eq_true] at h
      rcases List.mem_cons.mp hp with hp | hp
      · subst hp; exact h.1.2
      · exact ih h.2 hp

theorem wfDocList_mem (xs : List Json) (x : Json) (h : wfDocList xs = true)
    (hx : x ∈ xs) : wfDoc x = true := by
  induction xs with
  | nil => simp at hx
  | cons y rest ih =>
      simp only [wfDocList, Bool.and_eq_true] at h
      rcases List.mem_cons.mp hx with hx | hx
      · subst hx; exact h.1
      · exact ih h.2 hx

theorem wfDocKVs_mem (kvs : List (String × Json)) (p : String × Json)
    (h : wfDocKVs kvs = true) (hp : p ∈ kvs) : wfDoc p.2 = true := by
  induction kvs with
  | nil => simp at hp
  | cons q rest ih =>
      simp only [wfDocKVs, Bool.and_eq_true] at h
      rcases List.mem_cons.mp hp with hp | hp
      · subst hp; exact h.1
      · exact ih h.2 hp

theorem kvsLookup_decomp (kvs : List (String × Json)) (k : String) (v : Json)
    (hl : kvsLookup kvs k = some v) (hnd : (kvs.map Prod.fst).Nodup) :
    ∃ pre post, kvs = pre ++ (k, v) :: post ∧
      kvs.filter (fun p => p.1 ≠ k) = pre ++ post := by
  induction kvs with
  | nil => simp [kvsLookup] at hl
  | cons q rest ih =>
      simp only [kvsLookup] at hl
      simp only [List.map_cons, List.nodup_cons] at hnd
      by_cases hk : q.1 = k
      · simp only [hk, if_true] at hl
        injection hl with hl
        have hq : q = (k, v) := by rw [← hk, ← hl]
        refine ⟨[], rest, by rw [hq]; rfl, ?_⟩
        have hrest : ∀ p ∈ rest, (decide (p.1 ≠ k)) = true := by
          intro p hp
          simp only [decide_eq_true_eq]
          intro hpk
          apply hnd.1
          rw [hk, ← hpk]
          exact List.mem_map_of_mem Prod.fst hp
        rw [List.filter_cons]
        have hqk : (decide (q.1 ≠ k)) = false := by simp [hk]
        rw [hqk]
        simp only [Bool.false_eq_true, if_false, List.nil_append]
        exact List.filter_eq_self.mpr hrest
      · simp only [hk, if_false] at hl
        obtain ⟨pre, post, heq, hfil⟩ := ih hl hnd.2
        refine ⟨q :: pre, post, by rw [heq]; rfl, ?_⟩
        rw [List.filter_cons]
        have hqk : (decide (q.1 ≠ k)) = true := by simp [hk]
        rw [hqk]
        simp only [if_true, List.cons_append]
        rw [hfil]

theorem canonKVs_append (a b : List (String × Json)) :
    canonKVs (a ++ b) = canonKVs a ++ canonKVs b := by
  induction a with
  | nil => rfl
  | cons p rest ih => simp [canonKVs, ih]

theorem map_fst_canonKVs (l : List (String × Json)) :
    (canonKVs l).map Prod.fst = l.map Prod.fst := by
  induction l with
  | nil => rfl
  | cons p rest ih => simp [canonKVs, ih]

theorem resolveRefsFuel_noRef :
    ∀ (fuel : Nat) (node root : Json) (stack : List String) (memo : Memo) (inPoly : Bool),
      noRefKey node = true → wfDoc node = true →
      (resolveRefsFuel fuel node root stack memo inPoly).2 = memo ∧
      canon (resolveRefsFuel fuel node root stack memo inPoly).1 = canon node := by
  intro fuel
  induction fuel with
  | zero => intro node root stack memo inPoly _ _; exact ⟨rfl, rfl⟩
  | succ f ih =>
    intro node root stack memo inPoly href hwf
    have ihList : ∀ (xs : List Json) (m : Memo) (b : Bool),
        (∀ x ∈ xs, noRefKey x = true ∧ wfDoc x = true) →
        (resolveList (fun o m2 => resolveRefsFuel f o root stack m2 b) xs m).2 = m ∧
        canonList (resolveList (fun o m2 => resolveRefsFuel f o root stack m2 b) xs m).1
          = canonList xs := by
      intro xs
      induction xs with
      | nil => intro m b _; exact ⟨rfl, rfl⟩
      | cons x rest ihx =>
          intro m b hall
          obtain ⟨h1, h2⟩ := ih x root stack m b (hall x (List.mem_cons_self x rest)).1
            (hall x (List.mem_cons_self x rest)).2
          simp only [resolveList]
          rw [h1]
          obtain ⟨h3, h4⟩ := ihx m b (fun y hy => hall y (List.mem_cons_of_mem x hy))
          rw [h3]
          refine ⟨rfl, ?_⟩
          simp only [canonList]
          rw [h2, h4]
    have ihKVs : ∀ (l : List (String × Json)) (m : Memo) (b : Bool),
        (∀ p ∈ l, noRefKey p.2 = true ∧ wfDoc p.2 = true) →
        (resolveKVs (fun o m2 => resolveRefsFuel f o root stack m2 b) l m).2 = m ∧
        canonKVs (resolveKVs (fun o m2 => resolveRefsFuel f o root stack m2 b) l m).1
          = canonKVs l := by
      intro l
      induction l with
      | nil => intro m b _; exact ⟨rfl, rfl⟩
      | cons p rest ihp =>
          intro m b hall
          obtain ⟨h1, h2⟩ := ih p.2 root stack m b (hall p (List.mem_cons_self p rest)).1
            (hall p (List.mem_cons_self p rest)).2
          simp only [resolveKVs]
          rw [h1]
          obtain ⟨h3, h4⟩ := ihp m b (fun q hq => hall q (List.mem_cons_of_mem p hq))
          rw [h3]
          refine ⟨rfl, ?_⟩
          simp only [canonKVs]
          rw [h2, h4]
    cases node with
    | null => exact ⟨rfl, rfl⟩
    | bool b => exact ⟨rfl, rfl⟩
    | num n => exact ⟨rfl, rfl⟩
    | str s => exact ⟨rfl, rfl⟩
    | arr xs =>
        simp only [noRefKey] at href
        simp only [wfDoc] at hwf
        have hx : ∀ x ∈ xs, noRefKey x = true ∧ wfDoc x = true := fun x hxm =>
          ⟨noRefKeyList_mem xs x href hxm, wfDocList_mem xs x hwf hxm⟩
        obtain ⟨h1, h2⟩ := ihList xs memo inPoly hx
        simp only [resolveRefsFuel]
        refine ⟨h1, ?_⟩
        simp only [canon]
        rw [h2]
    | obj kvs =>
        simp only [noRefKey] at href
        simp only [wfDoc, Bool.and_eq_true, decide_eq_true_eq] at hwf
        obtain ⟨⟨⟨⟨hnd, hcomp1⟩, hcomp2⟩, hcomp3⟩, hkvswf⟩ := hwf
        have hvals : ∀ p ∈ kvs, noRefKey p.2 = true ∧ wfDoc p.2 = true := fun p hp =>
          ⟨noRefKeyKVs_mem kvs p href hp, wfDocKVs_mem kvs p hkvswf hp⟩
        have hcompCase : ∀ (key : String) (items : List Json),
            compItems kvs key = some items →
            (resolveKVs (fun o m => resolveRefsFuel f o root stack m inPoly)
                (kvs.filter fun p => p.1 ≠ key)
                (resolveList (fun o m => resolveRefsFuel f o root stack m true) items memo).2).2
              = memo ∧
            canon (Json.obj ((key, Json.arr
                (resolveList (fun o m => resolveRefsFuel f o root stack m true) items memo).1) ::
              (resolveKVs (fun o m => resolveRefsFuel f o root stack m inPoly)
                (kvs.filter fun p => p.1 ≠ key)
                (resolveList (fun o m => resolveRefsFuel f o root stack m true) items memo).2).1))
              = canon (Json.obj kvs) := by
          intro key items hkey
          have hlook := compItems_eq_some kvs key items hkey
          have hmem := kvsLookup_mem kvs key (Json.arr items) hlook
          have hitems : ∀ x ∈ items, noRefKey x = true ∧ wfDoc x = true := by
            intro x hxm
            have h1 := noRefKeyKVs_mem kvs _ href hmem
            have h2 := wfDocKVs_mem kvs _ hkvswf hmem
            simp only [noRefKey] at h1
            simp only [wfDoc] at h2
            exact ⟨noRefKeyList_mem items x h1 hxm, wfDocList_mem items x h2 hxm⟩
          obtain ⟨hb2, hb1⟩ := ihList items memo true hitems
          rw [hb2]
          have hfvals : ∀ p ∈ kvs.filter (fun p => p.1 ≠ key),
              noRefKey p.2 = true ∧ wfDoc p.2 = true :=
            fun p hp => hvals p (List.mem_of_mem_filter hp)
          obtain ⟨hr2, hr1⟩ := ihKVs (kvs.filter fun p => p.1 ≠ key) memo inPoly hfvals
          refine ⟨hr2, ?_⟩
          obtain ⟨pre, post, hdecomp, hfil⟩ := kvsLookup_decomp kvs key (Json.arr items) hlook hnd
          simp only [canon, canonKVs]
          rw [hr1, hfil, hb1, canonKVs_append]
          conv =>
            rhs
            rw [hdecomp, canonKVs_append]
            simp only [canonKVs, canon]
          apply congrArg Json.obj
          have hknd : (List.map Prod.fst kvs).Nodup := hnd
          rw [hdecomp] at hknd
          simp only [List.map_append, List.map_cons] at hknd
          have hmid := List.nodup_middle.mp hknd
          apply sortPairs_eq_of_perm
          · exact List.perm_middle.symm
          · simp only [List.map_cons, List.map_append, map_fst_canonKVs]
            exact hmid
        simp only [resolveRefsFuel]
        rcases ha : compItems kvs "anyOf" with _ | items
        case some => exact hcompCase "anyOf" items ha
        case none =>
        rcases hb : compItems kvs "oneOf" with _ | items
        case some => exact hcompCase "oneOf" items hb
        case none =>
        rcases hc : compItems kvs "allOf" with _ | items
        case some => exact hcompCase "allOf" items hc
        case none =>
        rcases hp : pureRefOf kvs with _ | refPath
        case some =>
            have hkvs := pureRefOf_eq_some kvs refPath hp
            rw [hkvs] at href
            simp [noRefKeyKVs] at href
        case none =>
            obtain ⟨hr2, hr1⟩ := ihKVs kvs memo inPoly hvals
            refine ⟨hr2, ?_⟩
            simp only [canon]
            rw [hr1]

/-- Claim C6: on a schema tree that contains no `$ref` key anywhere (and is a
well-formed decoded document: distinct keys per mapping, arrays under
composition keywords), resolution acts as the identity — the memo cache is
left untouched and the result is structurally identical to the input, for
objects, arrays and scalars alike.  Structural identity is equality of
canonical forms (`canon`): mapping key order is the one aspect resolution may
change, by moving a composition keyword to the front, and the specification
itself declares key order irrelevant. -/
theorem claim_C6_identity (fuel : Nat) (tree root : Json) (stack : List String) (memo : Memo)
    (inPoly : Bool) (href : noRefKey tree = true) (hwf : wfDoc tree = true) :
    (resolveRefsFuel fuel tree root stack memo inPoly).2 = memo ∧
    canon (resolveRefsFuel fuel tree root stack memo inPoly).1 = canon tree :=
  resolveRefsFuel_noRef fuel tree root stack memo inPoly href hwf

/-- Witness for C6 on a tree exercising a mapping, a composition keyword, an
array and scalars. -/
theorem claim_C6_identity_witness :
    noRefKey (Json.obj [("type", Json.str "object"),
      ("anyOf", Json.arr [Json.obj [("type", Json.str "string")], Json.num 3])]) = true ∧
    wfDoc (Json.obj [("type", Json.str "object"),
      ("anyOf", Json.arr [Json.obj [("type", Json.str "string")], Json.num 3])]) = true ∧
    (resolveRefsFuel 5 (Json.obj [("type", Json.str "object"),
        ("anyOf", Json.arr [Json.obj [("type", Json.str "string")], Json.num 3])])
        (Json.obj []) [] [] false).2 = [] ∧
    canon (resolveRefsFuel 5 (Json.obj [("type", Json.str "object"),
        ("anyOf", Json.arr [Json.obj [("type", Json.str "string")], Json.num 3])])
        (Json.obj []) [] [] false).1
      = canon (Json.obj [("type", Json.str "object"),
        ("anyOf", Json.arr [Json.obj [("type", Json.str "string")], Json.num 3])]) := by
  have h1 : noRefKey (Json.obj [("type", Json.str "object"),
      ("anyOf", Json.arr [Json.obj [("type", Json.str "string")], Json.num 3])]) = true := by
    simp [noRefKey, noRefKeyKVs, noRefKeyList]
  have h2 : wfDoc (Json.obj [("type", Json.str "object"),
      ("anyOf", Json.arr [Json.obj [("type", Json.str "string")], Json.num 3])]) = true := by
    simp [wfDoc, wfDocKVs, wfDocList, compOk, kvsLookup]
  have h3 := claim_C6_identity 5 (Json.obj [("type", Json.str "object"),
      ("anyOf", Json.arr [Json.obj [("type", Json.str "string")], Json.num 3])])
      (Json.obj []) [] [] false h1 h2
  exact ⟨h1, h2, h3.1, h3.2⟩
